import Mathlib

/-!
Verification of the in-memory catalog service in `src/app.py` against its
specification.  The Python source is shallowly embedded: Pydantic models become
structures, the `Obras` class becomes a state-passing record, the FastAPI
handlers become pure functions from a store (and an injected UTC clock value,
modelled as a natural number, one instant per request) to a result and a new
store.  The CSV machinery (`csv.DictReader` with `skipinitialspace=True`,
`csv.DictWriter` with minimal quoting) and `ast.literal_eval` are embedded as
executable parsers over `List Char`.
-/

/-- Embeds the Pydantic model `CreateObra` (src/app.py lines 25-32):
the client-supplied fields of a work. -/
structure CreateObra where
  titulo : String
  editora : String
  foto : String
  autores : List String
deriving DecidableEq, Repr

/-- Embeds the Pydantic model `Obra` (src/app.py lines 35-45): the stored
record; timestamps are UTC instants modelled as naturals. -/
structure Obra where
  titulo : String
  editora : String
  foto : String
  autores : List String
  id : Nat
  created_at : Nat
  updated_at : Nat
deriving DecidableEq, Repr

/-- Embeds the state of the `Obras` class (src/app.py lines 48-54):
the ordered list `_obras` and the counter `_current_id`. -/
structure Obras where
  obras : List Obra
  current_id : Nat
deriving DecidableEq, Repr

/-- `Obras.__init__`: `_obras = []`, `_current_id = len([]) = 0`. -/
def Obras.empty : Obras := ⟨[], 0⟩

/-- Embeds `Obras.append` (src/app.py lines 56-60).  The Python body reads the
wall clock (`datetime.datetime.utcnow`) while building the new `Obra`; the
clock value of the request is the explicit argument `now`, so
`created_at = updated_at = now`.  Returns the new record and the new state. -/
def Obras.append (s : Obras) (now : Nat) (obra : CreateObra) : Obra × Obras :=
  let newId := s.current_id + 1
  let result : Obra :=
    ⟨obra.titulo, obra.editora, obra.foto, obra.autores, newId, now, now⟩
  (result, ⟨s.obras ++ [result], newId⟩)

/-- The record `Obras.update` stores at the matching index: all `CreateObra`
fields replaced, `id` and `created_at` taken from the old record,
`updated_at` set to the clock value (src/app.py lines 67-70). -/
def mkUpdated (u : CreateObra) (old : Obra) (now : Nat) : Obra :=
  ⟨u.titulo, u.editora, u.foto, u.autores, old.id, old.created_at, now⟩

/-- Replacement of the first record whose `id` matches, mirroring
`next((i for i, item in enumerate(self._obras) if item.id == obra_id), None)`
followed by assignment at that index. -/
def updateFirst (now : Nat) (obra_id : Nat) (u : CreateObra) :
    List Obra → Option (Obra × List Obra)
  | [] => none
  | o :: rest =>
    if o.id = obra_id then
      some (mkUpdated u o now, mkUpdated u o now :: rest)
    else
      match updateFirst now obra_id u rest with
      | some (r, rest') => some (r, o :: rest')
      | none => none

/-- Embeds `Obras.update` (src/app.py lines 62-74): replaces the first record
with matching id and returns it, or returns `none` leaving the state
unchanged. -/
def Obras.update (s : Obras) (now : Nat) (obra_id : Nat) (u : CreateObra) :
    Option Obra × Obras :=
  match updateFirst now obra_id u s.obras with
  | some (r, l) => (some r, ⟨l, s.current_id⟩)
  | none => (none, s)

/-- Removal of the first record whose `id` matches, mirroring the index search
plus `self._obras.pop(matching_obra_index)` (src/app.py lines 76-80). -/
def removeFirst (obra_id : Nat) : List Obra → Option (Obra × List Obra)
  | [] => none
  | o :: rest =>
    if o.id = obra_id then some (o, rest)
    else
      match removeFirst obra_id rest with
      | some (r, rest') => some (r, o :: rest')
      | none => none

/-- Embeds `Obras.delete` (src/app.py lines 76-80). -/
def Obras.delete (s : Obras) (obra_id : Nat) : Option Obra × Obras :=
  match removeFirst obra_id s.obras with
  | some (r, l) => (some r, ⟨l, s.current_id⟩)
  | none => (none, s)

/-- Embeds `Obras.get_all` (src/app.py lines 82-83). -/
def Obras.get_all (s : Obras) : List Obra := s.obras

/-- Embeds `Obras.get_all_as_dict_filtered` (src/app.py lines 85-86):
`[obra for obra in self._obras if not filter_date or obra.created_at >= filter_date]`
(`filter_date = None` keeps everything; a datetime is always truthy). -/
def Obras.get_all_as_dict_filtered (s : Obras) (filter_date : Option Nat) :
    List Obra :=
  s.obras.filter fun o =>
    match filter_date with
    | none => true
    | some d => decide (d ≤ o.created_at)

/-- Embeds the handler `put_obras` (src/app.py lines 155-166): translates the
store's `None` into HTTP 404 with detail "Obra não encontrada!". -/
def put_obras (s : Obras) (now : Nat) (update_id : Nat) (updated_obra : CreateObra) :
    Except (Nat × String) Obra × Obras :=
  match Obras.update s now update_id updated_obra with
  | (some r, s') => (Except.ok r, s')
  | (none, s') => (Except.error (404, "Obra não encontrada!"), s')

/-- Embeds the DELETE handler (src/app.py lines 169-180). -/
def delete_obras (s : Obras) (delete_id : Nat) :
    Except (Nat × String) Obra × Obras :=
  match Obras.delete s delete_id with
  | (some r, s') => (Except.ok r, s')
  | (none, s') => (Except.error (404, "Obra não encontrada!"), s')

/-- A client-visible store operation, carrying the UTC clock value observed by
the request (one instant per request). -/
inductive Op where
  | opAppend (now : Nat) (c : CreateObra)
  | opUpdate (now : Nat) (i : Nat) (c : CreateObra)
  | opDelete (i : Nat)
deriving DecidableEq, Repr

/-- State transition of one operation. -/
def runOp (s : Obras) : Op → Obras
  | .opAppend now c => (s.append now c).2
  | .opUpdate now i c => (s.update now i c).2
  | .opDelete i => (s.delete i).2

/-- State after a sequence of operations starting from the empty store. -/
def run (ops : List Op) : Obras := ops.foldl runOp Obras.empty

/-- The ids returned by the `append` operations of a history, in order. -/
def appendedIds (s : Obras) : List Op → List Nat
  | [] => []
  | .opAppend now c :: rest =>
    ((s.append now c).1).id :: appendedIds (runOp s (.opAppend now c)) rest
  | op :: rest => appendedIds (runOp s op) rest

/-- Number of `append` operations in a history. -/
def countAppend : List Op → Nat
  | [] => 0
  | .opAppend _ _ :: rest => countAppend rest + 1
  | _ :: rest => countAppend rest

/-- Number of `delete` operations in a history. -/
def countDelete : List Op → Nat
  | [] => 0
  | .opDelete _ :: rest => countDelete rest + 1
  | _ :: rest => countDelete rest

/-- `consecutiveFrom a n = [a, a+1, ..., a+n-1]`. -/
def consecutiveFrom : Nat → Nat → List Nat
  | _, 0 => []
  | a, n + 1 => a :: consecutiveFrom (a + 1) n

/-- `update` and `delete` do not touch the id counter. -/
theorem runOp_current_id (s : Obras) (op : Op) :
    (runOp s op).current_id =
      match op with
      | .opAppend _ _ => s.current_id + 1
      | _ => s.current_id := by
  cases op with
  | opAppend now c => rfl
  | opUpdate now i c =>
    simp only [runOp, Obras.update]
    cases h : updateFirst now i c s.obras with
    | none => rfl
    | some p => cases p with | mk r l => rfl
  | opDelete i =>
    simp only [runOp, Obras.delete]
    cases h : removeFirst i s.obras with
    | none => rfl
    | some p => cases p with | mk r l => rfl

theorem appendedIds_eq (ops : List Op) : ∀ s : Obras,
    appendedIds s ops = consecutiveFrom (s.current_id + 1) (countAppend ops) := by
  induction ops with
  | nil => intro s; rfl
  | cons op rest ih =>
    intro s
    cases op with
    | opAppend now c =>
      have h := runOp_current_id s (.opAppend now c)
      simp only [appendedIds, countAppend, consecutiveFrom, ih, h]
      rfl
    | opUpdate now i c =>
      simp only [appendedIds, countAppend, ih]
      have h := runOp_current_id s (.opUpdate now i c)
      simp only [h]
    | opDelete i =>
      simp only [appendedIds, countAppend, ih]
      have h := runOp_current_id s (.opDelete i)
      simp only [h]

/-- Claim C1: starting from the empty store, the ids returned by successive
appends, across any interleaving of appends, updates and deletes, are exactly
the consecutive positive integers 1, 2, ..., n (n the number of appends) in
append order; in particular they are strictly increasing, positive, and an id
is never assigned twice, even after the record holding it is deleted. -/
theorem c1_append_ids_consecutive (ops : List Op) :
    appendedIds Obras.empty ops = consecutiveFrom 1 (countAppend ops) :=
  appendedIds_eq ops Obras.empty

/-- Membership in the list produced by a successful `updateFirst`: every
record either survives untouched or is the rewritten first match. -/
theorem updateFirst_mem {now i : Nat} {u : CreateObra} :
    ∀ {l : List Obra} {ret : Obra} {l' : List Obra},
      updateFirst now i u l = some (ret, l') →
      ∀ r ∈ l', r ∈ l ∨ ∃ o, o ∈ l ∧ r = mkUpdated u o now := by
  intro l
  induction l with
  | nil => intro ret l' h; simp [updateFirst] at h
  | cons o rest ih =>
    intro ret l' h r hr
    by_cases hid : o.id = i
    · simp only [updateFirst, if_pos hid] at h
      obtain ⟨-, rfl⟩ := Prod.mk.injEq .. ▸ Option.some.injEq .. ▸ h
      rcases List.mem_cons.mp hr with hr | hr
      · exact Or.inr ⟨o, List.mem_cons_self o rest, hr⟩
      · exact Or.inl (List.mem_cons_of_mem o hr)
    · simp only [updateFirst, if_neg hid] at h
      cases hrest : updateFirst now i u rest with
      | none => rw [hrest] at h; cases h
      | some p =>
        obtain ⟨r0, rest'⟩ := p
        rw [hrest] at h
        obtain ⟨-, rfl⟩ := Prod.mk.injEq .. ▸ Option.some.injEq .. ▸ h
        rcases List.mem_cons.mp hr with hr | hr
        · exact Or.inl (hr ▸ List.mem_cons_self o rest)
        · rcases ih hrest r hr with h1 | ⟨o', ho', rfl⟩
          · exact Or.inl (List.mem_cons_of_mem o h1)
          · exact Or.inr ⟨o', List.mem_cons_of_mem o ho', rfl⟩

/-- Membership after a successful `removeFirst`: survivors come from the
original list. -/
theorem removeFirst_mem {i : Nat} :
    ∀ {l : List Obra} {ret : Obra} {l' : List Obra},
      removeFirst i l = some (ret, l') → ∀ r ∈ l', r ∈ l := by
  intro l
  induction l with
  | nil => intro ret l' h; simp [removeFirst] at h
  | cons o rest ih =>
    intro ret l' h r hr
    by_cases hid : o.id = i
    · simp only [removeFirst, if_pos hid] at h
      obtain ⟨-, rfl⟩ := Prod.mk.injEq .. ▸ Option.some.injEq .. ▸ h
      exact List.mem_cons_of_mem o hr
    · simp only [removeFirst, if_neg hid] at h
      cases hrest : removeFirst i rest with
      | none => rw [hrest] at h; cases h
      | some p =>
        obtain ⟨r0, rest'⟩ := p
        rw [hrest] at h
        obtain ⟨-, rfl⟩ := Prod.mk.injEq .. ▸ Option.some.injEq .. ▸ h
        rcases List.mem_cons.mp hr with hr | hr
        · exact hr ▸ List.mem_cons_self o rest
        · exact List.mem_cons_of_mem o (ih hrest r hr)

/-- The clock values carried by a history are at least `t` and
non-decreasing along the history (the wall clock is monotone). -/
def timeLB : Nat → List Op → Bool
  | _, [] => true
  | t, .opAppend now _ :: rest => decide (t ≤ now) && timeLB now rest
  | t, .opUpdate now _ _ :: rest => decide (t ≤ now) && timeLB now rest
  | t, .opDelete _ :: rest => timeLB t rest

/-- The last clock value of a history (or `t` if it has none). -/
def timeEnd (t : Nat) : List Op → Nat
  | [] => t
  | .opAppend now _ :: rest => timeEnd now rest
  | .opUpdate now _ _ :: rest => timeEnd now rest
  | .opDelete _ :: rest => timeEnd t rest

theorem timestamps_inv (ops : List Op) : ∀ (s : Obras) (t : Nat),
    timeLB t ops = true →
    (∀ r ∈ s.obras, r.created_at ≤ r.updated_at ∧ r.updated_at ≤ t) →
    ∀ r ∈ (List.foldl runOp s ops).obras,
      r.created_at ≤ r.updated_at ∧ r.updated_at ≤ timeEnd t ops := by
  induction ops with
  | nil => intro s t _ hinv; simpa using hinv
  | cons op rest ih =>
    intro s t htime hinv
    cases op with
    | opAppend now c =>
      simp only [timeLB, Bool.and_eq_true, decide_eq_true_eq] at htime
      obtain ⟨hle, htime⟩ := htime
      refine ih _ now htime ?_
      intro r hr
      simp only [runOp, Obras.append, List.mem_append, List.mem_singleton] at hr
      rcases hr with hr | rfl
      · obtain ⟨h1, h2⟩ := hinv r hr
        exact ⟨h1, le_trans h2 hle⟩
      · exact ⟨le_refl now, le_refl now⟩
    | opUpdate now i c =>
      simp only [timeLB, Bool.and_eq_true, decide_eq_true_eq] at htime
      obtain ⟨hle, htime⟩ := htime
      refine ih _ now htime ?_
      intro r hr
      simp only [runOp, Obras.update] at hr
      cases hupd : updateFirst now i c s.obras with
      | none =>
        rw [hupd] at hr
        obtain ⟨h1, h2⟩ := hinv r hr
        exact ⟨h1, le_trans h2 hle⟩
      | some p =>
        obtain ⟨r0, l'⟩ := p
        rw [hupd] at hr
        rcases updateFirst_mem hupd r hr with hmem | ⟨o, ho, rfl⟩
        · obtain ⟨h1, h2⟩ := hinv r hmem
          exact ⟨h1, le_trans h2 hle⟩
        · obtain ⟨h1, h2⟩ := hinv o ho
          exact ⟨le_trans (le_trans h1 h2) hle, le_refl now⟩
    | opDelete i =>
      simp only [timeLB] at htime
      refine ih _ t htime ?_
      intro r hr
      simp only [runOp, Obras.delete] at hr
      cases hdel : removeFirst i s.obras with
      | none => rw [hdel] at hr; exact hinv r hr
      | some p =>
        obtain ⟨r0, l'⟩ := p
        rw [hdel] at hr
        exact hinv r (removeFirst_mem hdel r hr)

/-- Claim C2: under a monotone UTC clock, every stored record satisfies
`created_at ≤ updated_at` after any history, and `append` assigns
`created_at` and `updated_at` the same current-UTC instant on the record it
returns. -/
theorem c2_created_le_updated (ops : List Op) (h : timeLB 0 ops = true) :
    (∀ r ∈ (run ops).obras, r.created_at ≤ r.updated_at) ∧
    ∀ (s : Obras) (now : Nat) (c : CreateObra),
      ((s.append now c).1).created_at = now ∧
      ((s.append now c).1).updated_at = now := by
  constructor
  · intro r hr
    exact (timestamps_inv ops Obras.empty 0 h (by simp [Obras.empty]) r hr).1
  · intro s now c
    exact ⟨rfl, rfl⟩

/-- A sample create request used by concrete evaluations. -/
def cObraA : CreateObra := ⟨"A", "E", "u", ["X"]⟩

/-- A sample history with non-decreasing clock values. -/
def c2ops : List Op :=
  [.opAppend 3 cObraA, .opUpdate 5 1 cObraA, .opDelete 1, .opAppend 7 cObraA]

/-- Witness for C2 at a concrete history. -/
theorem c2_created_le_updated_witness :
    timeLB 0 c2ops = true ∧
    ((∀ r ∈ (run c2ops).obras, r.created_at ≤ r.updated_at) ∧
     ∀ (s : Obras) (now : Nat) (c : CreateObra),
       ((s.append now c).1).created_at = now ∧
       ((s.append now c).1).updated_at = now) :=
  ⟨by decide, c2_created_le_updated c2ops (by decide)⟩

/-- `updateFirst` on a list decomposed around its first match. -/
theorem updateFirst_found {now i : Nat} {u : CreateObra} :
    ∀ (pre : List Obra) (old : Obra) (post : List Obra),
      (∀ r ∈ pre, r.id ≠ i) → old.id = i →
      updateFirst now i u (pre ++ old :: post) =
        some (mkUpdated u old now, pre ++ mkUpdated u old now :: post) := by
  intro pre
  induction pre with
  | nil =>
    intro old post _ hid
    simp [updateFirst, hid]
  | cons p pre' ih =>
    intro old post hpre hid
    have hp : p.id ≠ i := hpre p (List.mem_cons_self p pre')
    have hrest : ∀ r ∈ pre', r.id ≠ i := fun r hr => hpre r (List.mem_cons_of_mem p hr)
    simp only [List.cons_append, updateFirst, if_neg hp, List.append_eq,
      ih old post hrest hid]

/-- `updateFirst` finds nothing when no id matches. -/
theorem updateFirst_none {now i : Nat} {u : CreateObra} :
    ∀ l : List Obra, (∀ r ∈ l, r.id ≠ i) → updateFirst now i u l = none := by
  intro l
  induction l with
  | nil => intro _; rfl
  | cons o rest ih =>
    intro h
    have ho : o.id ≠ i := h o (List.mem_cons_self o rest)
    have hrest := ih fun r hr => h r (List.mem_cons_of_mem o hr)
    simp only [updateFirst, if_neg ho, hrest]

/-- Claim C3: if some record has the requested id, `update` rewrites exactly
the first such record — the four `CreateObra` fields replaced, `id` and
`created_at` preserved, `updated_at` set to the current UTC instant — leaves
everything else in place, and returns the new record; if no record has the
id, the HTTP facade answers 404 with detail "Obra não encontrada!" and the
store is unchanged. -/
theorem c3_update_semantics (s : Obras) (now i : Nat) (c : CreateObra) :
    (∀ pre old post, s.obras = pre ++ old :: post → old.id = i →
      (∀ r ∈ pre, r.id ≠ i) →
      Obras.update s now i c =
        (some (mkUpdated c old now),
         ⟨pre ++ mkUpdated c old now :: post, s.current_id⟩)) ∧
    ((∀ r ∈ s.obras, r.id ≠ i) →
      put_obras s now i c = (Except.error (404, "Obra não encontrada!"), s)) := by
  constructor
  · intro pre old post hs hid hpre
    simp only [Obras.update, hs, updateFirst_found pre old post hpre hid]
  · intro h
    simp only [put_obras, Obras.update, updateFirst_none s.obras h]

/-- A concrete two-record store. -/
def c3store : Obras :=
  ⟨[⟨"B", "F", "v", [], 1, 2, 2⟩, ⟨"A", "E", "u", ["X"], 2, 3, 3⟩], 2⟩

/-- Witness for C3: a successful update of id 2 and a 404 on id 7. -/
theorem c3_update_semantics_witness :
    (Obras.update c3store 9 2 cObraA =
      (some (mkUpdated cObraA ⟨"A", "E", "u", ["X"], 2, 3, 3⟩ 9),
       ⟨[⟨"B", "F", "v", [], 1, 2, 2⟩,
         mkUpdated cObraA ⟨"A", "E", "u", ["X"], 2, 3, 3⟩ 9], 2⟩)) ∧
    put_obras c3store 9 7 cObraA =
      (Except.error (404, "Obra não encontrada!"), c3store) :=
  ⟨(c3_update_semantics c3store 9 2 cObraA).1
      [⟨"B", "F", "v", [], 1, 2, 2⟩] ⟨"A", "E", "u", ["X"], 2, 3, 3⟩ []
      rfl rfl (by decide),
   (c3_update_semantics c3store 9 7 cObraA).2 (by decide)⟩

/-- `removeFirst` on a list decomposed around its first match. -/
theorem removeFirst_found {i : Nat} :
    ∀ (pre : List Obra) (old : Obra) (post : List Obra),
      (∀ r ∈ pre, r.id ≠ i) → old.id = i →
      removeFirst i (pre ++ old :: post) = some (old, pre ++ post) := by
  intro pre
  induction pre with
  | nil =>
    intro old post _ hid
    simp [removeFirst, hid]
  | cons p pre' ih =>
    intro old post hpre hid
    have hp : p.id ≠ i := hpre p (List.mem_cons_self p pre')
    have hrest : ∀ r ∈ pre', r.id ≠ i := fun r hr => hpre r (List.mem_cons_of_mem p hr)
    simp only [List.cons_append, removeFirst, if_neg hp, List.append_eq,
      ih old post hrest hid]

/-- `removeFirst` finds nothing when no id matches. -/
theorem removeFirst_none {i : Nat} :
    ∀ l : List Obra, (∀ r ∈ l, r.id ≠ i) → removeFirst i l = none := by
  intro l
  induction l with
  | nil => intro _; rfl
  | cons o rest ih =>
    intro h
    have ho : o.id ≠ i := h o (List.mem_cons_self o rest)
    have hrest := ih fun r hr => h r (List.mem_cons_of_mem o hr)
    simp only [removeFirst, if_neg ho, hrest]

/-- A successful `removeFirst` splits the list around the first match. -/
theorem removeFirst_eq_split {i : Nat} :
    ∀ {l : List Obra} {ret : Obra} {l' : List Obra},
      removeFirst i l = some (ret, l') →
      ∃ pre post, l = pre ++ ret :: post ∧ l' = pre ++ post ∧ ret.id = i ∧
        ∀ r ∈ pre, r.id ≠ i := by
  intro l
  induction l with
  | nil => intro ret l' h; simp [removeFirst] at h
  | cons o rest ih =>
    intro ret l' h
    by_cases hid : o.id = i
    · simp only [removeFirst, if_pos hid, Option.some.injEq, Prod.mk.injEq] at h
      obtain ⟨rfl, rfl⟩ := h
      exact ⟨[], rest, rfl, rfl, hid, by simp⟩
    · simp only [removeFirst, if_neg hid] at h
      cases hrest : removeFirst i rest with
      | none => rw [hrest] at h; cases h
      | some p =>
        obtain ⟨r0, rest'⟩ := p
        rw [hrest] at h
        simp only [Option.some.injEq, Prod.mk.injEq] at h
        obtain ⟨rfl, rfl⟩ := h
        obtain ⟨pre, post, h1, h2, h3, h4⟩ := ih hrest
        refine ⟨o :: pre, post, by simp [h1], by simp [h2], h3, ?_⟩
        intro r hr
        rcases List.mem_cons.mp hr with rfl | hr
        · exact hid
        · exact h4 r hr

/-- A failed `removeFirst` means no record carries the id. -/
theorem removeFirst_none_no_match {i : Nat} :
    ∀ {l : List Obra}, removeFirst i l = none → ∀ r ∈ l, r.id ≠ i := by
  intro l
  induction l with
  | nil => intro _ r hr; cases hr
  | cons o rest ih =>
    intro h r hr
    by_cases hid : o.id = i
    · simp [removeFirst, hid] at h
    · simp only [removeFirst, if_neg hid] at h
      cases hrest : removeFirst i rest with
      | none =>
        rcases List.mem_cons.mp hr with rfl | hr
        · exact hid
        · exact ih hrest r hr
      | some p => obtain ⟨r0, rest'⟩ := p; rw [hrest] at h; cases h

/-- `updateFirst` never changes the multiset of ids (positionally). -/
theorem updateFirst_map_id {now i : Nat} {u : CreateObra} :
    ∀ {l : List Obra} {ret : Obra} {l' : List Obra},
      updateFirst now i u l = some (ret, l') →
      l'.map Obra.id = l.map Obra.id := by
  intro l
  induction l with
  | nil => intro ret l' h; simp [updateFirst] at h
  | cons o rest ih =>
    intro ret l' h
    by_cases hid : o.id = i
    · simp only [updateFirst, if_pos hid, Option.some.injEq, Prod.mk.injEq] at h
      obtain ⟨rfl, rfl⟩ := h
      simp [mkUpdated]
    · simp only [updateFirst, if_neg hid] at h
      cases hrest : updateFirst now i u rest with
      | none => rw [hrest] at h; cases h
      | some p =>
        obtain ⟨r0, rest'⟩ := p
        rw [hrest] at h
        simp only [Option.some.injEq, Prod.mk.injEq] at h
        obtain ⟨rfl, rfl⟩ := h
        simp [ih hrest]

/-- The store invariant guarded by the id counter: every stored id is at most
the counter, and the stored ids are pairwise distinct. -/
def storeIdInvariant (s : Obras) : Prop :=
  (∀ r ∈ s.obras, r.id ≤ s.current_id) ∧ (s.obras.map Obra.id).Nodup

theorem runOp_preserves_inv (s : Obras) (op : Op) :
    storeIdInvariant s → storeIdInvariant (runOp s op) := by
  intro ⟨hbound, hnodup⟩
  cases op with
  | opAppend now c =>
    constructor
    · intro r hr
      simp only [runOp, Obras.append, List.mem_append, List.mem_singleton] at hr
      rcases hr with hr | rfl
      · exact le_trans (hbound r hr) (Nat.le_succ _)
      · exact le_refl _
    · simp only [runOp, Obras.append, List.map_append, List.map_cons, List.map_nil]
      rw [List.nodup_append]
      refine ⟨hnodup, List.nodup_singleton _, ?_⟩
      intro a ha hb
      simp only [List.mem_singleton] at hb
      subst hb
      simp only [List.mem_map] at ha
      obtain ⟨r, hr, hid⟩ := ha
      have := hbound r hr
      omega
  | opUpdate now i c =>
    simp only [runOp, Obras.update]
    cases hupd : updateFirst now i c s.obras with
    | none => exact ⟨hbound, hnodup⟩
    | some p =>
      obtain ⟨r0, l'⟩ := p
      have hmap := updateFirst_map_id hupd
      constructor
      · intro r hr
        have : r.id ∈ l'.map Obra.id := List.mem_map_of_mem Obra.id hr
        rw [hmap] at this
        simp only [List.mem_map] at this
        obtain ⟨r', hr', hid⟩ := this
        exact hid ▸ hbound r' hr'
      · simpa [hmap] using hnodup
  | opDelete i =>
    simp only [runOp, Obras.delete]
    cases hdel : removeFirst i s.obras with
    | none => exact ⟨hbound, hnodup⟩
    | some p =>
      obtain ⟨r0, l'⟩ := p
      obtain ⟨pre, post, h1, h2, -, -⟩ := removeFirst_eq_split hdel
      subst h2
      rw [h1] at hbound hnodup
      have hsub : (pre ++ post).Sublist (pre ++ r0 :: post) :=
        (List.sublist_cons_self r0 post).append_left pre
      show storeIdInvariant ⟨pre ++ post, s.current_id⟩
      constructor
      · intro r hr
        exact hbound r (hsub.mem hr)
      · exact List.Nodup.sublist (hsub.map Obra.id) hnodup

/-- All states reachable from the empty store satisfy the id invariant. -/
theorem run_storeIdInvariant (ops : List Op) : storeIdInvariant (run ops) := by
  have h : ∀ (l : List Op) (s : Obras), storeIdInvariant s →
      storeIdInvariant (List.foldl runOp s l) := by
    intro l
    induction l with
    | nil => intro s hs; exact hs
    | cons op rest ih =>
      intro s hs
      exact ih (runOp s op) (runOp_preserves_inv s op hs)
  exact h ops Obras.empty ⟨(by intro r hr; cases hr), List.nodup_nil⟩

/-- Claim C4: `delete` removes exactly the first record with the requested id
and returns it, leaving every other record unchanged and in order; on a miss
(including the empty store) the facade answers 404 with detail
"Obra não encontrada!" and the store is unchanged; when the stored ids are
pairwise distinct — which holds in every reachable state — no `get_all` or
`get_all_as_dict_filtered` result after the deletion contains a record with
the deleted id. -/
theorem c4_delete_semantics (s : Obras) (i : Nat) :
    (∀ pre old post, s.obras = pre ++ old :: post → old.id = i →
      (∀ r ∈ pre, r.id ≠ i) →
      Obras.delete s i = (some old, ⟨pre ++ post, s.current_id⟩)) ∧
    ((∀ r ∈ s.obras, r.id ≠ i) →
      delete_obras s i = (Except.error (404, "Obra não encontrada!"), s)) ∧
    ((s.obras.map Obra.id).Nodup →
      (∀ r ∈ (Obras.delete s i).2.get_all, r.id ≠ i) ∧
      ∀ d, ∀ r ∈ (Obras.delete s i).2.get_all_as_dict_filtered d, r.id ≠ i) ∧
    ∀ ops : List Op, ((run ops).obras.map Obra.id).Nodup := by
  refine ⟨?_, ?_, ?_, fun ops => (run_storeIdInvariant ops).2⟩
  · intro pre old post hs hid hpre
    simp only [Obras.delete, hs, removeFirst_found pre old post hpre hid]
  · intro h
    simp only [delete_obras, Obras.delete, removeFirst_none s.obras h]
  · intro hnodup
    have hall : ∀ r ∈ (Obras.delete s i).2.get_all, r.id ≠ i := by
      intro r hr
      cases hdel : removeFirst i s.obras with
      | none =>
        have heq : Obras.delete s i = (none, s) := by
          simp only [Obras.delete, hdel]
        rw [heq] at hr
        exact removeFirst_none_no_match hdel r hr
      | some p =>
        obtain ⟨r0, l'⟩ := p
        obtain ⟨pre, post, h1, h2, hid0, hpre⟩ := removeFirst_eq_split hdel
        subst h2
        have heq : Obras.delete s i = (some r0, ⟨pre ++ post, s.current_id⟩) := by
          simp only [Obras.delete, hdel]
        rw [heq] at hr
        simp only [Obras.get_all] at hr
        rw [h1] at hnodup
        rcases List.mem_append.mp hr with hr | hr
        · exact hpre r hr
        · intro hri
          have hmap : (pre.map Obra.id ++ r0.id :: post.map Obra.id).Nodup := by
            simpa using hnodup
          have hcons : (r0.id :: post.map Obra.id).Nodup :=
            (List.nodup_append.mp hmap).2.1
          have hnotin : r0.id ∉ post.map Obra.id := (List.nodup_cons.mp hcons).1
          have hin : r.id ∈ post.map Obra.id := List.mem_map_of_mem Obra.id hr
          rw [hri, ← hid0] at hin
          exact hnotin hin
    refine ⟨hall, ?_⟩
    intro d r hr
    simp only [Obras.get_all_as_dict_filtered] at hr
    exact hall r (by
      simp only [Obras.get_all]
      exact (List.mem_filter.mp hr).1)

/-- Witness for C4: deleting id 1 from a concrete two-record store and a 404
on a missing id. -/
theorem c4_delete_semantics_witness :
    (Obras.delete c3store 1 =
      (some ⟨"B", "F", "v", [], 1, 2, 2⟩,
       ⟨[⟨"A", "E", "u", ["X"], 2, 3, 3⟩], 2⟩)) ∧
    delete_obras c3store 9 =
      (Except.error (404, "Obra não encontrada!"), c3store) ∧
    ∀ r ∈ (Obras.delete c3store 1).2.get_all, r.id ≠ 1 :=
  ⟨(c4_delete_semantics c3store 1).1 [] ⟨"B", "F", "v", [], 1, 2, 2⟩
      [⟨"A", "E", "u", ["X"], 2, 3, 3⟩] rfl rfl (by decide),
   (c4_delete_semantics c3store 9).2.1 (by decide),
   ((c4_delete_semantics c3store 1).2.2.1 (by decide)).1⟩

/-- The comparator named by the claim: the maximum id among stored records
(0 when the store is empty). -/
def maxId (l : List Obra) : Nat := (l.map Obra.id).foldr max 0

/-- The counter counts the appends of the history. -/
theorem run_current_id_eq_countAppend (ops : List Op) : ∀ s : Obras,
    (List.foldl runOp s ops).current_id = s.current_id + countAppend ops := by
  induction ops with
  | nil => intro s; rfl
  | cons op rest ih =>
    intro s
    have h := runOp_current_id s op
    cases op with
    | opAppend now c =>
      simp only [List.foldl_cons, ih, h, countAppend]
      omega
    | opUpdate now i c => simp only [List.foldl_cons, ih, h, countAppend]
    | opDelete i =>
      simp only [List.foldl_cons, ih, h, countAppend]

theorem maxId_append_singleton (l : List Obra) (a : Obra) :
    maxId (l ++ [a]) = max (maxId l) a.id := by
  induction l with
  | nil => simp [maxId]
  | cons o rest ih =>
    simp only [maxId, List.map_cons, List.foldr_cons, List.cons_append,
      List.map_append] at *
    rw [List.foldr_append] at *
    simp only [List.map_cons, List.map_nil, List.foldr_cons, List.foldr_nil] at *
    omega

/-- In a deletion-free history the counter coincides with the maximum stored
id. -/
theorem maxId_eq_current_id_of_no_delete (ops : List Op) : ∀ s : Obras,
    countDelete ops = 0 → maxId s.obras = s.current_id →
    maxId (List.foldl runOp s ops).obras = (List.foldl runOp s ops).current_id := by
  induction ops with
  | nil => intro s _ h; exact h
  | cons op rest ih =>
    intro s hdel h
    cases op with
    | opAppend now c =>
      simp only [countAppend, countDelete] at hdel
      refine ih _ hdel ?_
      simp only [runOp, Obras.append, maxId_append_singleton, h]
      omega
    | opUpdate now i c =>
      simp only [countDelete] at hdel
      refine ih _ hdel ?_
      simp only [runOp, Obras.update]
      cases hupd : updateFirst now i c s.obras with
      | none => exact h
      | some p =>
        obtain ⟨r0, l'⟩ := p
        have hmap := updateFirst_map_id hupd
        show maxId l' = s.current_id
        rw [maxId, hmap, ← maxId, h]
    | opDelete i => simp [countDelete] at hdel

/-- Claim C8 (amended): `append` assigns the id `_current_id + 1`, where the
counter `_current_id` equals the number of appends performed so far and is
never decremented; this coincides with "maximum stored id + 1" (starting at 1
on the empty store) for histories without deletions, but not in general. -/
theorem c8_append_id (ops : List Op) :
    (run ops).current_id = countAppend ops ∧
    (∀ (now : Nat) (c : CreateObra),
      (((run ops).append now c).1).id = (run ops).current_id + 1) ∧
    (countDelete ops = 0 →
      ∀ (now : Nat) (c : CreateObra),
        (((run ops).append now c).1).id = maxId (run ops).obras + 1) := by
  refine ⟨?_, fun now c => rfl, ?_⟩
  · have h := run_current_id_eq_countAppend ops Obras.empty
    simpa [run, Obras.empty] using h
  · intro hdel now c
    have h := maxId_eq_current_id_of_no_delete ops Obras.empty hdel (by rfl)
    show (run ops).current_id + 1 = maxId (run ops).obras + 1
    rw [show maxId (run ops).obras = (run ops).current_id from h]

/-- The history refuting C8 as stated: two appends, then delete id 2. -/
def c8ops : List Op := [.opAppend 0 cObraA, .opAppend 0 cObraA, .opDelete 2]

/-- Counterexample to C8 as stated: after `c8ops` the store holds only id 1,
so "current maximum id + 1" is 2, yet `append` assigns id 3. -/
theorem c8_append_id_counterexample :
    (((run c8ops).append 0 cObraA).1).id = 3 ∧
    maxId (run c8ops).obras + 1 = 2 := by
  decide

/-- A deletion-free history for the C8 witness. -/
def c8ops2 : List Op := [.opAppend 0 cObraA, .opUpdate 1 1 cObraA]

/-- Witness for C8: on a deletion-free history the assigned id is the
maximum stored id plus one. -/
theorem c8_append_id_witness :
    countDelete c8ops2 = 0 ∧
    (((run c8ops2).append 2 cObraA).1).id = maxId (run c8ops2).obras + 1 :=
  ⟨by decide, (c8_append_id c8ops2).2.2 (by decide) 2 cObraA⟩

/-- How a CSV field ends: at a delimiter, at a record terminator, or at the
end of the input. -/
inductive FieldEnd where
  | comma
  | eol
  | eof
deriving DecidableEq, Repr

/-- After a `\r`, a following `\n` belongs to the same terminator
(the `EAT_CRNL` state of the CPython csv reader). -/
def dropLf : List Char → List Char
  | [] => []
  | c :: rest => if c = '\n' then rest else c :: rest

/-- The `IN_FIELD` state of the CPython csv reader: an unquoted field runs to
the next delimiter or record terminator; a quote character is ordinary here. -/
def parseUnquoted (acc : List Char) : List Char → List Char × FieldEnd × List Char
  | [] => (acc, .eof, [])
  | c :: rest =>
    if c = ',' then (acc, .comma, rest)
    else if c = '\r' then (acc, .eol, dropLf rest)
    else if c = '\n' then (acc, .eol, rest)
    else parseUnquoted (acc ++ [c]) rest

/-- The `IN_QUOTED_FIELD` / `QUOTE_IN_QUOTED_FIELD` states: `""` is an escaped
quote, a quote followed by a delimiter or terminator closes the field, and a
quote followed by anything else falls back to unquoted mode (non-strict
dialect). -/
def parseQuoted (acc : List Char) : List Char → List Char × FieldEnd × List Char
  | [] => (acc, .eof, [])
  | c :: rest =>
    if c = '"' then
      match rest with
      | [] => (acc, .eof, [])
      | c2 :: rest2 =>
        if c2 = '"' then parseQuoted (acc ++ ['"']) rest2
        else if c2 = ',' then (acc, .comma, rest2)
        else if c2 = '\r' then (acc, .eol, dropLf rest2)
        else if c2 = '\n' then (acc, .eol, rest2)
        else parseUnquoted (acc ++ [c2]) rest2
    else parseQuoted (acc ++ [c]) rest

/-- The `START_FIELD` state with `skipinitialspace=True` (src/app.py line
109): spaces after a delimiter are skipped, a quote opens a quoted field. -/
def parseField : List Char → List Char × FieldEnd × List Char
  | [] => ([], .eof, [])
  | c :: rest =>
    if c = ' ' then parseField rest
    else if c = '"' then parseQuoted [] rest
    else if c = ',' then ([], .comma, rest)
    else if c = '\r' then ([], .eol, dropLf rest)
    else if c = '\n' then ([], .eol, rest)
    else parseUnquoted [c] rest

theorem dropLf_length (l : List Char) : (dropLf l).length ≤ l.length := by
  cases l with
  | nil => exact le_refl _
  | cons c rest =>
    simp only [dropLf]
    split
    · simp
    · exact le_refl _

/-- One CSV record: fields separated by commas, ended by a record terminator
or the end of the input.  The boolean is `true` when input remains after a
terminator.  The fuel bounds the number of fields; every step consumes at
least one character, so `length + 1` fuel can never run out. -/
def parseFieldsF : Nat → List Char → List String × Bool × List Char
  | 0, _ => ([], false, [])
  | fuel + 1, cs =>
    match parseField cs with
    | (f, .comma, rest) =>
      let r := parseFieldsF fuel rest
      (f.asString :: r.1, r.2.1, r.2.2)
    | (f, .eol, rest) => ([f.asString], true, rest)
    | (f, .eof, rest) => ([f.asString], false, rest)

/-- All records of a CSV text (the `START_RECORD` state): a line that starts
with a terminator yields the empty record, as in the CPython reader.  The
fuel bounds the number of records. -/
def parseRowsF : Nat → List Char → List (List String)
  | 0, _ => []
  | fuel + 1, cs =>
    match cs with
    | [] => []
    | c :: rest =>
      if c = '\r' then [] :: parseRowsF fuel (dropLf rest)
      else if c = '\n' then [] :: parseRowsF fuel rest
      else
        match parseFieldsF (fuel + 1) (c :: rest) with
        | (fs, true, rest') => fs :: parseRowsF fuel rest'
        | (fs, false, _) => [fs]

/-- The records of a CSV text. -/
def parseRows (cs : List Char) : List (List String) :=
  parseRowsF (cs.length + 1) cs

/-- Whitespace accepted around Python literals. -/
def pyWs (c : Char) : Bool := c = ' ' || c = '\t' || c = '\n' || c = '\r'

def skipWs : List Char → List Char
  | [] => []
  | c :: rest => if pyWs c then skipWs rest else c :: rest

/-- Value of a hexadecimal digit. -/
def hexDigitVal (c : Char) : Option Nat :=
  if '0' ≤ c ∧ c ≤ '9' then some (c.toNat - 48)
  else if 'a' ≤ c ∧ c ≤ 'f' then some (c.toNat - 87)
  else if 'A' ≤ c ∧ c ≤ 'F' then some (c.toNat - 55)
  else none

/-- Body of a Python string literal quoted by `q`: ordinary characters, the
common backslash escapes, `\xHH`, a line continuation, and "unknown escape
kept verbatim" as CPython does; an unescaped line ending is a syntax error,
as in Python.  Returns the decoded text and the input after the closing
quote. -/
def parsePyStr (q : Char) (acc : List Char) : List Char → Option (List Char × List Char)
  | [] => none
  | c :: rest =>
    if c = q then some (acc, rest)
    else if c = '\n' then none
    else if c = '\r' then none
    else if c = '\\' then
      match rest with
      | [] => none
      | e :: rest2 =>
        if e = 'n' then parsePyStr q (acc ++ ['\n']) rest2
        else if e = 'r' then parsePyStr q (acc ++ ['\r']) rest2
        else if e = 't' then parsePyStr q (acc ++ ['\t']) rest2
        else if e = '\\' then parsePyStr q (acc ++ ['\\']) rest2
        else if e = '\'' then parsePyStr q (acc ++ ['\'']) rest2
        else if e = '"' then parsePyStr q (acc ++ ['"']) rest2
        else if e = '\n' then parsePyStr q acc rest2
        else if e = 'x' then
          match rest2 with
          | h1 :: h2 :: rest3 =>
            match hexDigitVal h1, hexDigitVal h2 with
            | some v1, some v2 =>
              parsePyStr q (acc ++ [Char.ofNat (16 * v1 + v2)]) rest3
            | _, _ => none
          | _ => none
        else parsePyStr q (acc ++ ['\\', e]) rest2
    else parsePyStr q (acc ++ [c]) rest

/-- Characters that may continue an identifier (used to delimit the keywords
`None`, `True`, `False`). -/
def isIdentChar (c : Char) : Bool := c.isAlphanum || c = '_'

/-- `matchKw ks cs`: `cs` starts with `ks` and the next character does not
continue the word; returns the remainder. -/
def matchKw : List Char → List Char → Option (List Char)
  | [], [] => some []
  | [], c :: rest => if isIdentChar c then none else some (c :: rest)
  | _ :: _, [] => none
  | k :: ks, c :: rest => if c = k then matchKw ks rest else none

/-- A run of decimal digits. -/
def parseDigits (acc : Nat) : List Char → Nat × List Char
  | [] => (acc, [])
  | c :: rest =>
    if c.isDigit then parseDigits (acc * 10 + (c.toNat - 48)) rest
    else (acc, c :: rest)

/-- Python literal values as produced by `ast.literal_eval` on the forms this
service can meet (strings, integers, booleans, None, lists, tuples, sets,
dicts).  Floats, bytes, complex and exotic string prefixes are not modelled:
on such cells the embedded parser fails where CPython would produce a value
that the `List[str]` validation rejects anyway, so the upload outcome
agrees. -/
inductive PyVal where
  | vstr (s : String)
  | vint (n : Int)
  | vbool (b : Bool)
  | vnone
  | vlist (l : List PyVal)
  | vtuple (l : List PyVal)
  | vset (l : List PyVal)
  | vdict (l : List (PyVal × PyVal))

mutual

/-- One Python literal (fuelled recursive-descent parser). -/
def parsePy : Nat → List Char → Option (PyVal × List Char)
  | 0, _ => none
  | fuel + 1, cs =>
    match skipWs cs with
    | [] => none
    | c :: rest =>
      if c = '\'' then
        (parsePyStr '\'' [] rest).map fun p => (PyVal.vstr p.1.asString, p.2)
      else if c = '"' then
        (parsePyStr '"' [] rest).map fun p => (PyVal.vstr p.1.asString, p.2)
      else if c = '[' then
        (parsePySeq fuel ']' rest).map fun p => (PyVal.vlist p.1, p.2)
      else if c = '(' then parsePyTuple fuel rest
      else if c = '{' then parsePyBrace fuel rest
      else if c = '-' then
        match skipWs rest with
        | d :: rest2 =>
          if d.isDigit then
            let p := parseDigits (d.toNat - 48) rest2
            some (PyVal.vint (-(p.1 : Int)), p.2)
          else none
        | [] => none
      else if c = '+' then
        match skipWs rest with
        | d :: rest2 =>
          if d.isDigit then
            let p := parseDigits (d.toNat - 48) rest2
            some (PyVal.vint (p.1 : Int), p.2)
          else none
        | [] => none
      else if c.isDigit then
        let p := parseDigits (c.toNat - 48) rest
        some (PyVal.vint (p.1 : Int), p.2)
      else if c = 'N' then
        (matchKw ['o', 'n', 'e'] rest).map fun r => (PyVal.vnone, r)
      else if c = 'T' then
        (matchKw ['r', 'u', 'e'] rest).map fun r => (PyVal.vbool true, r)
      else if c = 'F' then
        (matchKw ['a', 'l', 's', 'e'] rest).map fun r => (PyVal.vbool false, r)
      else none

/-- Comma-separated literals up to a closing bracket (trailing comma
allowed). -/
def parsePySeq : Nat → Char → List Char → Option (List PyVal × List Char)
  | 0, _, _ => none
  | fuel + 1, close, cs =>
    match skipWs cs with
    | [] => none
    | c :: rest =>
      if c = close then some ([], rest)
      else
        match parsePy fuel (c :: rest) with
        | none => none
        | some (v, r1) =>
          match skipWs r1 with
          | [] => none
          | c2 :: r2 =>
            if c2 = close then some ([v], r2)
            else if c2 = ',' then
              match parsePySeq fuel close r2 with
              | none => none
              | some (l, r3) => some (v :: l, r3)
            else none

/-- After `(`: the empty tuple, a parenthesised value, or a tuple of two or
more elements (`(v)` is just `v`, as in Python). -/
def parsePyTuple : Nat → List Char → Option (PyVal × List Char)
  | 0, _ => none
  | fuel + 1, cs =>
    match skipWs cs with
    | [] => none
    | c :: rest =>
      if c = ')' then some (PyVal.vtuple [], rest)
      else
        match parsePy fuel (c :: rest) with
        | none => none
        | some (v, r1) =>
          match skipWs r1 with
          | [] => none
          | c2 :: r2 =>
            if c2 = ')' then some (v, r2)
            else if c2 = ',' then
              match parsePySeq fuel ')' r2 with
              | none => none
              | some (l, r3) => some (PyVal.vtuple (v :: l), r3)
            else none

/-- After `{`: the empty dict, a set, or a dict. -/
def parsePyBrace : Nat → List Char → Option (PyVal × List Char)
  | 0, _ => none
  | fuel + 1, cs =>
    match skipWs cs with
    | [] => none
    | c :: rest =>
      if c = '}' then some (PyVal.vdict [], rest)
      else
        match parsePy fuel (c :: rest) with
        | none => none
        | some (k, r1) =>
          match skipWs r1 with
          | [] => none
          | c2 :: r2 =>
            if c2 = ':' then
              match parsePy fuel r2 with
              | none => none
              | some (v, r3) =>
                match parsePyDictRest fuel r3 with
                | none => none
                | some (l, r4) => some (PyVal.vdict ((k, v) :: l), r4)
            else if c2 = '}' then some (PyVal.vset [k], r2)
            else if c2 = ',' then
              match parsePySeq fuel '}' r2 with
              | none => none
              | some (l, r3) => some (PyVal.vset (k :: l), r3)
            else none

/-- Dict entries after the first pair (trailing comma allowed). -/
def parsePyDictRest : Nat → List Char → Option (List (PyVal × PyVal) × List Char)
  | 0, _ => none
  | fuel + 1, cs =>
    match skipWs cs with
    | [] => none
    | c :: rest =>
      if c = '}' then some ([], rest)
      else if c = ',' then
        match skipWs rest with
        | [] => none
        | c2 :: r2 =>
          if c2 = '}' then some ([], r2)
          else
            match parsePy fuel (c2 :: r2) with
            | none => none
            | some (k, r3) =>
              match skipWs r3 with
              | [] => none
              | c3 :: r4 =>
                if c3 = ':' then
                  match parsePy fuel r4 with
                  | none => none
                  | some (v, r5) =>
                    match parsePyDictRest fuel r5 with
                    | none => none
                    | some (l, r6) => some ((k, v) :: l, r6)
                else none
      else none

end

/-- Embeds `ast.literal_eval` (src/app.py line 116): parse one literal with
only whitespace around it. -/
def literal_eval (s : String) : Option PyVal :=
  match parsePy (s.toList.length + 1) s.toList with
  | some (v, rest) => if skipWs rest = [] then some v else none
  | none => none

/-- All elements are string literals. -/
def asTextList : List PyVal → Option (List String)
  | [] => some []
  | .vstr s :: rest => (asTextList rest).map fun l => s :: l
  | _ => none

/-- Modelled from the spec: the validation that Pydantic (an external
collaborator, not part of src/) applies to the `autores: List[str]` field —
per spec §4.2 the cell "must denote an ordered sequence of text values" and
everything else is rejected.  Lists and tuples of strings are the ordered
sequences a Python literal can denote. -/
def asTextSeq : PyVal → Option (List String)
  | .vlist l => asTextList l
  | .vtuple l => asTextList l
  | _ => none

/-- Index used by `dict(zip(fieldnames, row))` with `restval` filling: for a
duplicated column name the later occurrence wins, so the value of `key` is
`row[i]` for the last `i` with `fieldnames[i] = key`. -/
def lastIdxOf (key : String) : List String → Option Nat
  | [] => none
  | k :: rest =>
    match lastIdxOf key rest with
    | some i => some (i + 1)
    | none => if k = key then some 0 else none

/-- `row[key]` of a `csv.DictReader` row: `none` is a `KeyError` (column
absent from the header), `some none` is the `restval` `None` (row shorter
than the header), `some (some v)` is a present cell. -/
def rowLookup (fieldnames row : List String) (key : String) : Option (Option String) :=
  match lastIdxOf key fieldnames with
  | none => none
  | some i => some (row.get? i)

/-- A row-level failure of the import loop: a `KeyError` is caught by the
handler (src/app.py line 118), every other exception escapes. -/
inductive RowErr where
  | keyError
  | otherError
deriving DecidableEq, Repr

/-- One row of the import loop (src/app.py lines 110-117), in evaluation
order: the four cell lookups (each may raise `KeyError`), then
`literal_eval` on the autores cell (its failure, or a `None` cell, raises a
non-KeyError), then the `CreateObra` validation. -/
def parseRowFields (f row : List String) : Except RowErr CreateObra :=
  match rowLookup f row "titulo" with
  | none => .error .keyError
  | some t? =>
    match rowLookup f row "editora" with
    | none => .error .keyError
    | some e? =>
      match rowLookup f row "foto" with
      | none => .error .keyError
      | some p? =>
        match rowLookup f row "autores" with
        | none => .error .keyError
        | some a? =>
          match a? with
          | none => .error .otherError
          | some cell =>
            match literal_eval cell with
            | none => .error .otherError
            | some v =>
              match t?, e?, p?, asTextSeq v with
              | some t, some e, some p, some autores =>
                .ok ⟨t, e, p, autores⟩
              | _, _, _, _ => .error .otherError

/-- Result of the upload handler: HTTP 200 with the created records, HTTP 400
with a detail string, or an uncaught exception (HTTP 500). -/
inductive UploadOutcome where
  | ok (records : List Obra)
  | badRequest (detail : String)
  | internalError
deriving DecidableEq, Repr

/-- The import loop: rows are appended in order; a `KeyError` aborts with
400 "CSV mal formatado!", any other failure escapes; either way the records
already appended stay in the store. -/
def processRows (s : Obras) (now : Nat) (f : List String) :
    List (List String) → UploadOutcome × Obras
  | [] => (.ok [], s)
  | row :: rest =>
    match parseRowFields f row with
    | .error .keyError => (.badRequest "CSV mal formatado!", s)
    | .error .otherError => (.internalError, s)
    | .ok c =>
      let p := s.append now c
      match processRows p.2 now f rest with
      | (.ok rs, s'') => (.ok (p.1 :: rs), s'')
      | other => other

/-- Embeds the handler `post_upload_obras` (src/app.py lines 100-121): the
decoded upload is read by `csv.DictReader` (first record is the header, blank
rows are skipped, an empty file yields no rows at all) and each data row is
appended. -/
def post_upload_obras (s : Obras) (now : Nat) (text : String) :
    UploadOutcome × Obras :=
  match parseRows text.toList with
  | [] => (.ok [], s)
  | header :: rawRows =>
    processRows s now header (rawRows.filter fun r => !r.isEmpty)

/-- The four columns the import requires. -/
def requiredPresent (header : List String) : Bool :=
  header.contains "titulo" && header.contains "editora" &&
    header.contains "foto" && header.contains "autores"

theorem contains_of_lastIdxOf (k : String) :
    ∀ (f : List String) (i : Nat), lastIdxOf k f = some i → f.contains k = true := by
  intro f
  induction f with
  | nil => intro i h; cases h
  | cons k' rest ih =>
    intro i h
    simp only [lastIdxOf] at h
    cases hrest : lastIdxOf k rest with
    | some j =>
      simp only [List.contains_cons, Bool.or_eq_true]
      exact Or.inr (ih j hrest)
    | none =>
      rw [hrest] at h
      by_cases hk : k' = k
      · simp only [List.contains_cons, Bool.or_eq_true]
        exact Or.inl (by simp [hk])
      · rw [if_neg hk] at h
        cases h

theorem lastIdxOf_isSome_of_contains (k : String) :
    ∀ f : List String, f.contains k = true → ∃ i, lastIdxOf k f = some i := by
  intro f
  induction f with
  | nil => intro h; simp at h
  | cons k' rest ih =>
    intro h
    cases hrest : lastIdxOf k rest with
    | some j =>
      refine ⟨j + 1, ?_⟩
      simp only [lastIdxOf, hrest]
    | none =>
      simp only [List.contains_cons, Bool.or_eq_true] at h
      rcases h with h | h
      · have hk : k' = k := (beq_iff_eq.mp h).symm
        refine ⟨0, ?_⟩
        simp only [lastIdxOf, hrest, if_pos hk]
      · obtain ⟨i, hi⟩ := ih h
        rw [hi] at hrest
        cases hrest

/-- A row of a header missing some required column always raises `KeyError`. -/
theorem parseRowFields_keyError (f row : List String)
    (h : requiredPresent f = false) :
    parseRowFields f row = .error .keyError := by
  rw [parseRowFields.eq_def]
  cases h1 : rowLookup f row "titulo" with
  | none => rfl
  | some t? =>
    dsimp only
    cases h2 : rowLookup f row "editora" with
    | none => rfl
    | some e? =>
      dsimp only
      cases h3 : rowLookup f row "foto" with
      | none => rfl
      | some p? =>
        dsimp only
        cases h4 : rowLookup f row "autores" with
        | none => rfl
        | some a? =>
          exfalso
          have hc : ∀ (k : String) (v : Option String),
              rowLookup f row k = some v → f.contains k = true := by
            intro k v hv
            simp only [rowLookup] at hv
            cases hik : lastIdxOf k f with
            | none => rw [hik] at hv; cases hv
            | some i => exact contains_of_lastIdxOf k f i hik
          have := hc "titulo" t? h1
          have := hc "editora" e? h2
          have := hc "foto" p? h3
          have := hc "autores" a? h4
          simp only [requiredPresent, Bool.and_eq_true] at h
          simp_all

/-- Claim C5 (amended): an uploaded CSV whose header lacks at least one of
the required columns and which has at least one non-blank data row fails as
a whole with 400 "CSV mal formatado!" and leaves the store unchanged.  (With
zero data rows the loop body never runs and no `KeyError` is raised: such an
upload instead succeeds with an empty list — see the counterexample.) -/
theorem c5_missing_column (s : Obras) (now : Nat) (text : String)
    (header : List String) (rawRows : List (List String))
    (hparse : parseRows text.toList = header :: rawRows)
    (hrows : rawRows.filter (fun r => !r.isEmpty) ≠ [])
    (hmissing : requiredPresent header = false) :
    post_upload_obras s now text = (.badRequest "CSV mal formatado!", s) := by
  rw [post_upload_obras, hparse]
  dsimp only
  rw [processRows.eq_def]
  split
  · rename_i hfil
    exact absurd hfil hrows
  · rename_i row rest hfil
    rw [parseRowFields_keyError header row hmissing]

/-- Counterexample to C5 as stated: this CSV's header lacks the required
column `autores` (and every data row — there are none), yet the import
answers 200 with the empty list instead of 400, leaving the store
unchanged. -/
theorem c5_missing_column_counterexample :
    post_upload_obras Obras.empty 0 "titulo,editora,foto\n" =
      (UploadOutcome.ok [], Obras.empty) ∧
    parseRows ("titulo,editora,foto\n".toList) = [["titulo", "editora", "foto"]] ∧
    requiredPresent ["titulo", "editora", "foto"] = false := by
  decide

/-- Witness for C5 (amended) on a concrete document with one data row. -/
theorem c5_missing_column_witness :
    post_upload_obras Obras.empty 0 "titulo,editora,foto\nA,B,C\n" =
      (UploadOutcome.badRequest "CSV mal formatado!", Obras.empty) :=
  c5_missing_column Obras.empty 0 "titulo,editora,foto\nA,B,C\n"
    ["titulo", "editora", "foto"] [["A", "B", "C"]]
    (by decide) (by decide) (by decide)

/-- `append` applied to a batch of create requests, collecting the created
records. -/
def appendMany (s : Obras) (now : Nat) : List CreateObra → List Obra × Obras
  | [] => ([], s)
  | c :: cs =>
    let p := s.append now c
    let q := appendMany p.2 now cs
    (p.1 :: q.1, q.2)

theorem appendMany_obras (now : Nat) :
    ∀ (cs : List CreateObra) (s : Obras),
      (appendMany s now cs).2.obras = s.obras ++ (appendMany s now cs).1 := by
  intro cs
  induction cs with
  | nil => intro s; simp [appendMany]
  | cons c rest ih =>
    intro s
    simp only [appendMany]
    rw [ih]
    simp [Obras.append]

theorem appendMany_length (now : Nat) :
    ∀ (cs : List CreateObra) (s : Obras),
      (appendMany s now cs).1.length = cs.length := by
  intro cs
  induction cs with
  | nil => intro s; rfl
  | cons c rest ih =>
    intro s
    simp only [appendMany, List.length_cons, ih]

/-- The create requests of a prefix of rows on which the import loop cannot
fail. -/
def parseGoodRows (f : List String) : List (List String) → Option (List CreateObra)
  | [] => some []
  | r :: rs =>
    match parseRowFields f r with
    | .ok c => (parseGoodRows f rs).map fun l => c :: l
    | .error _ => none

/-- If every required column is in the header, the partially processed batch
stays in the store when a later row blows up with a non-`KeyError`. -/
theorem processRows_internal (f : List String) (now : Nat) :
    ∀ (goods : List (List String)) (s : Obras) (cs : List CreateObra)
      (bad : List String) (rest : List (List String)),
      parseGoodRows f goods = some cs →
      parseRowFields f bad = .error .otherError →
      processRows s now f (goods ++ bad :: rest) =
        (.internalError, (appendMany s now cs).2) := by
  intro goods
  induction goods with
  | nil =>
    intro s cs bad rest hgoods hbad
    simp only [parseGoodRows, Option.some.injEq] at hgoods
    subst hgoods
    simp only [List.nil_append, processRows, hbad, appendMany]
  | cons g goods' ih =>
    intro s cs bad rest hgoods hbad
    simp only [parseGoodRows] at hgoods
    cases hg : parseRowFields f g with
    | error e => rw [hg] at hgoods; cases hgoods
    | ok c =>
      rw [hg] at hgoods
      simp only [Option.map_eq_some'] at hgoods
      obtain ⟨cs', hcs', rfl⟩ := hgoods
      simp only [List.cons_append, processRows, hg, List.append_eq]
      rw [ih (s.append now c).2 cs' bad rest hcs' hbad]
      simp only [appendMany]

theorem rowLookup_isSome_of_contains (f row : List String) (k : String)
    (h : f.contains k = true) : ∃ v, rowLookup f row k = some v := by
  obtain ⟨i, hi⟩ := lastIdxOf_isSome_of_contains k f h
  exact ⟨row.get? i, by simp [rowLookup, hi]⟩

/-- A row whose autores cell is present but not a valid literal makes the
loop fail with a non-`KeyError` (an uncaught `ValueError`), provided the
header has all the required columns (so no lookup raises `KeyError`
first). -/
theorem parseRowFields_otherError_of_bad_autores (f row : List String)
    (cell : String) (hreq : requiredPresent f = true)
    (hcell : rowLookup f row "autores" = some (some cell))
    (hbad : literal_eval cell = none) :
    parseRowFields f row = .error .otherError := by
  simp only [requiredPresent, Bool.and_eq_true] at hreq
  obtain ⟨⟨⟨ht, he⟩, hf⟩, -⟩ := hreq
  obtain ⟨t?, h1⟩ := rowLookup_isSome_of_contains f row "titulo" ht
  obtain ⟨e?, h2⟩ := rowLookup_isSome_of_contains f row "editora" he
  obtain ⟨p?, h3⟩ := rowLookup_isSome_of_contains f row "foto" hf
  rw [parseRowFields.eq_def, h1, h2, h3, hcell]
  dsimp only
  rw [hbad]

/-- Claim C10: when the header has all required columns but the k-th data
row's autores cell is not a valid literal, the import is not atomic — the
first k-1 rows stay persisted in the store — and the failure escapes as an
uncaught error (HTTP 500), not as the 400 "CSV mal formatado!" reserved for
missing columns. -/
theorem c10_non_atomic_import (s : Obras) (now : Nat) (text : String)
    (header : List String) (rawRows goods : List (List String))
    (bad : List String) (rest : List (List String)) (cs : List CreateObra)
    (cell : String)
    (hparse : parseRows text.toList = header :: rawRows)
    (hreq : requiredPresent header = true)
    (hsplit : rawRows.filter (fun r => !r.isEmpty) = goods ++ bad :: rest)
    (hgoods : parseGoodRows header goods = some cs)
    (hcell : rowLookup header bad "autores" = some (some cell))
    (hbad : literal_eval cell = none) :
    post_upload_obras s now text = (UploadOutcome.internalError, (appendMany s now cs).2) ∧
    (appendMany s now cs).2.obras = s.obras ++ (appendMany s now cs).1 ∧
    (appendMany s now cs).1.length = goods.length := by
  have hbadrow := parseRowFields_otherError_of_bad_autores header bad cell hreq hcell hbad
  refine ⟨?_, appendMany_obras now cs s, ?_⟩
  · rw [post_upload_obras, hparse]
    dsimp only
    rw [hsplit, processRows_internal header now goods s cs bad rest hgoods hbadrow]
  · rw [appendMany_length]
    clear hbadrow hcell hbad hsplit hparse
    induction goods generalizing cs with
    | nil =>
      simp only [parseGoodRows, Option.some.injEq] at hgoods
      subst hgoods
      rfl
    | cons g goods' ih =>
      simp only [parseGoodRows] at hgoods
      cases hg : parseRowFields header g with
      | error e => rw [hg] at hgoods; cases hgoods
      | ok c =>
        rw [hg] at hgoods
        simp only [Option.map_eq_some'] at hgoods
        obtain ⟨cs', hcs', rfl⟩ := hgoods
        simp only [List.length_cons, ih cs' hcs']

/-- Witness for C10: a two-row upload whose second row's autores cell is not
a literal; the first row's record stays, the outcome is the uncaught-error
one. -/
theorem c10_non_atomic_import_witness :
    post_upload_obras Obras.empty 7
        "titulo,editora,foto,autores\nA,E,u,\"['X']\"\nB,F,v,oops\n" =
      (UploadOutcome.internalError,
       (appendMany Obras.empty 7 [⟨"A", "E", "u", ["X"]⟩]).2) ∧
    (appendMany Obras.empty 7 [⟨"A", "E", "u", ["X"]⟩]).2.obras =
      Obras.empty.obras ++ (appendMany Obras.empty 7 [⟨"A", "E", "u", ["X"]⟩]).1 ∧
    (appendMany Obras.empty 7 [⟨"A", "E", "u", ["X"]⟩]).1.length =
      [["A", "E", "u", "['X']"]].length :=
  c10_non_atomic_import Obras.empty 7
    "titulo,editora,foto,autores\nA,E,u,\"['X']\"\nB,F,v,oops\n"
    ["titulo", "editora", "foto", "autores"]
    [["A", "E", "u", "['X']"], ["B", "F", "v", "oops"]]
    [["A", "E", "u", "['X']"]] ["B", "F", "v", "oops"] []
    [⟨"A", "E", "u", ["X"]⟩] "oops"
    (by decide) (by decide) (by decide) (by decide) (by decide) rfl

/-- Concatenation with a separator between items. -/
def sepConcat (sep : List Char) : List (List Char) → List Char
  | [] => []
  | [x] => x
  | x :: xs => x ++ sep ++ sepConcat sep xs

/-- Characters that force the excel dialect's minimal quoting. -/
def isCsvSpecial (c : Char) : Bool := c = ',' || c = '"' || c = '\r' || c = '\n'

def needsQuote (f : List Char) : Bool := f.any isCsvSpecial

/-- Double every quote character (the `doublequote` dialect option). -/
def escapeQuotes : List Char → List Char
  | [] => []
  | c :: rest =>
    if c = '"' then '"' :: '"' :: escapeQuotes rest else c :: escapeQuotes rest

/-- `QUOTE_MINIMAL` rendering of one field by `csv.writer`. -/
def csvQuoteField (f : List Char) : List Char :=
  if needsQuote f then '"' :: escapeQuotes f ++ ['"'] else f

/-- One row written by `csv.writer` (default `lineterminator` is CRLF; the
export file is opened with `newline=''` so it reaches the client as is). -/
def csvRenderRow (fs : List (List Char)) : List Char :=
  sepConcat [','] (fs.map csvQuoteField) ++ ['\r', '\n']

def csvRenderDoc (rows : List (List (List Char))) : List Char :=
  (rows.map csvRenderRow).flatten

/-- The quote `repr` picks for a Python string: single, unless the text has a
single quote and no double quote. -/
def pyQuote (s : List Char) : Char :=
  if s.contains '\'' && !(s.contains '"') then '"' else '\''

def hexDigitChar (n : Nat) : Char :=
  if n < 10 then Char.ofNat (48 + n) else Char.ofNat (87 + n)

/-- How `repr` renders one character inside a string quoted by `q`:
backslash, the quote, `\n`, `\r`, `\t` and other control characters are
escaped, everything else is kept as is. -/
def pyEscapeChar (q c : Char) : List Char :=
  if c = '\\' then ['\\', '\\']
  else if c = q then ['\\', q]
  else if c = '\n' then ['\\', 'n']
  else if c = '\r' then ['\\', 'r']
  else if c = '\t' then ['\\', 't']
  else if c.toNat < 32 || c.toNat = 127 then
    ['\\', 'x', hexDigitChar (c.toNat / 16), hexDigitChar (c.toNat % 16)]
  else [c]

/-- `repr` of a Python string. -/
def pyReprStr (s : List Char) : List Char :=
  let q := pyQuote s
  q :: (s.map (pyEscapeChar q)).flatten ++ [q]

/-- `str` of a Python list of strings, as `csv.DictWriter` stringifies the
autores value: `['a', 'b']`. -/
def pyStrOfList (l : List String) : List Char :=
  '[' :: sepConcat [',', ' '] (l.map fun s => pyReprStr s.toList) ++ [']']

def digitChar (n : Nat) : Char := Char.ofNat (48 + n)

/-- Decimal digits of a number (fuelled; `n + 1` fuel suffices). -/
def natDigitsF : Nat → Nat → List Char
  | 0, _ => []
  | fuel + 1, n =>
    if n < 10 then [digitChar n]
    else natDigitsF fuel (n / 10) ++ [digitChar (n % 10)]

/-- `str` of the id and of the (numerically modelled) timestamps. -/
def natDigits (n : Nat) : List Char := natDigitsF (n + 1) n

/-- The dict produced by `obra.dict()` keeps the `Obra` field order, so the
export columns are these, in this order (src/app.py lines 143-147). -/
def obraFieldnames : List (List Char) :=
  ["titulo".toList, "editora".toList, "foto".toList, "autores".toList,
   "id".toList, "created_at".toList, "updated_at".toList]

/-- One data row of the export: the stringified values of `obra.dict()` in
field order. -/
def obraCsvRow (o : Obra) : List (List Char) :=
  [o.titulo.toList, o.editora.toList, o.foto.toList, pyStrOfList o.autores,
   natDigits o.id, natDigits o.created_at, natDigits o.updated_at]

/-- Embeds the handler `get_file_obras` (src/app.py lines 132-152) up to the
CSV document it writes to the temporary file: 404 "Nenhuma obra para
exportar!" when the (optionally filtered) list is empty, otherwise the
header row followed by one row per record. -/
def get_file_obras (s : Obras) (data_inicial : Option Nat) :
    Except (Nat × String) String :=
  let obras_list := s.get_all_as_dict_filtered data_inicial
  if obras_list.isEmpty then Except.error (404, "Nenhuma obra para exportar!")
  else Except.ok (String.mk (csvRenderDoc (obraFieldnames :: obras_list.map obraCsvRow)))

theorem skipWs_not (c : Char) (X : List Char) (h : pyWs c = false) :
    skipWs (c :: X) = c :: X := by
  simp [skipWs, h]

theorem parsePyStr_close (q : Char) (acc t : List Char) :
    parsePyStr q acc (q :: t) = some (acc, t) := by
  rw [parsePyStr.eq_def]
  simp

theorem parsePyStr_step_raw {q c : Char} (acc t : List Char)
    (h1 : c ≠ q) (h2 : c ≠ '\\') (h3 : c ≠ '\n') (h4 : c ≠ '\r') :
    parsePyStr q acc (c :: t) = parsePyStr q (acc ++ [c]) t := by
  rw [parsePyStr.eq_def]
  simp [h1, h2, h3, h4]

theorem parsePyStr_esc_n {q : Char} (acc t : List Char) (hq : q ≠ '\\') :
    parsePyStr q acc ('\\' :: 'n' :: t) = parsePyStr q (acc ++ ['\n']) t := by
  rw [parsePyStr.eq_def]
  simp [Ne.symm hq]

theorem parsePyStr_esc_r {q : Char} (acc t : List Char) (hq : q ≠ '\\') :
    parsePyStr q acc ('\\' :: 'r' :: t) = parsePyStr q (acc ++ ['\r']) t := by
  rw [parsePyStr.eq_def]
  simp [Ne.symm hq]

theorem parsePyStr_esc_t {q : Char} (acc t : List Char) (hq : q ≠ '\\') :
    parsePyStr q acc ('\\' :: 't' :: t) = parsePyStr q (acc ++ ['\t']) t := by
  rw [parsePyStr.eq_def]
  simp [Ne.symm hq]

theorem parsePyStr_esc_bs {q : Char} (acc t : List Char) (hq : q ≠ '\\') :
    parsePyStr q acc ('\\' :: '\\' :: t) = parsePyStr q (acc ++ ['\\']) t := by
  rw [parsePyStr.eq_def]
  simp [Ne.symm hq]

theorem parsePyStr_esc_sq {q : Char} (acc t : List Char) (hq : q ≠ '\\') :
    parsePyStr q acc ('\\' :: '\'' :: t) = parsePyStr q (acc ++ ['\'']) t := by
  rw [parsePyStr.eq_def]
  simp [Ne.symm hq]

theorem parsePyStr_esc_dq {q : Char} (acc t : List Char) (hq : q ≠ '\\') :
    parsePyStr q acc ('\\' :: '"' :: t) = parsePyStr q (acc ++ ['"']) t := by
  rw [parsePyStr.eq_def]
  simp [Ne.symm hq]

theorem parsePyStr_esc_hex {q h1 h2 : Char} (acc t : List Char) (hq : q ≠ '\\')
    {v1 v2 : Nat} (hv1 : hexDigitVal h1 = some v1) (hv2 : hexDigitVal h2 = some v2) :
    parsePyStr q acc ('\\' :: 'x' :: h1 :: h2 :: t) =
      parsePyStr q (acc ++ [Char.ofNat (16 * v1 + v2)]) t := by
  rw [parsePyStr.eq_def]
  simp [Ne.symm hq, hv1, hv2]

/-- A string body free of the quote, backslash and line endings parses back
verbatim. -/
theorem parsePyStr_raw (q : Char) :
    ∀ (s acc d : List Char),
      (∀ c ∈ s, c ≠ q ∧ c ≠ '\\' ∧ c ≠ '\n' ∧ c ≠ '\r') →
      parsePyStr q acc (s ++ q :: d) = some (acc ++ s, d) := by
  intro s
  induction s with
  | nil =>
    intro acc d _
    simp [parsePyStr_close]
  | cons c s' ih =>
    intro acc d h
    obtain ⟨h1, h2, h3, h4⟩ := h c (List.mem_cons_self c s')
    rw [List.cons_append, parsePyStr_step_raw acc _ h1 h2 h3 h4,
      ih (acc ++ [c]) d fun x hx => h x (List.mem_cons_of_mem c hx)]
    simp

theorem hexDigitVal_hexDigitChar : ∀ m : Nat, m < 16 → hexDigitVal (hexDigitChar m) = some m := by
  decide

/-- The quote picked by `repr` is one of the two quote characters. -/
theorem pyQuote_cases (s : List Char) : pyQuote s = '\'' ∨ pyQuote s = '"' := by
  unfold pyQuote
  split
  · exact Or.inr rfl
  · exact Or.inl rfl

/-- `repr`-escaped text parses back verbatim. -/
theorem parsePyStr_escaped (q : Char) (hq : q = '\'' ∨ q = '"') :
    ∀ (s acc d : List Char),
      parsePyStr q acc ((s.map (pyEscapeChar q)).flatten ++ q :: d) =
        some (acc ++ s, d) := by
  have hqbs : q ≠ '\\' := by rcases hq with rfl | rfl <;> decide
  have hqn : q ≠ '\n' := by rcases hq with rfl | rfl <;> decide
  have hqr : q ≠ '\r' := by rcases hq with rfl | rfl <;> decide
  have hqt : q ≠ '\t' := by rcases hq with rfl | rfl <;> decide
  have hqctl : ¬(q.toNat < 32 ∨ q.toNat = 127) := by
    rcases hq with rfl | rfl <;> decide
  intro s
  induction s with
  | nil =>
    intro acc d
    simp [parsePyStr_close]
  | cons c s' ih =>
    intro acc d
    simp only [List.map_cons, List.flatten_cons, List.append_assoc]
    by_cases hc1 : c = '\\'
    · subst hc1
      rw [show pyEscapeChar q '\\' = ['\\', '\\'] from by simp [pyEscapeChar]]
      rw [List.cons_append, List.cons_append, parsePyStr_esc_bs _ _ hqbs, List.nil_append, ih]
      simp
    · by_cases hc2 : c = q
      · subst hc2
        rw [show pyEscapeChar c c = ['\\', c] from by
          simp [pyEscapeChar, hc1]]
        rcases hq with rfl | rfl
        · rw [List.cons_append, List.cons_append, parsePyStr_esc_sq _ _ hqbs, List.nil_append, ih]
          simp
        · rw [List.cons_append, List.cons_append, parsePyStr_esc_dq _ _ hqbs, List.nil_append, ih]
          simp
      · by_cases hc3 : c = '\n'
        · subst hc3
          rw [show pyEscapeChar q '\n' = ['\\', 'n'] from by
            simp [pyEscapeChar, Ne.symm hqn, Ne.symm hqbs]]
          rw [List.cons_append, List.cons_append, parsePyStr_esc_n _ _ hqbs, List.nil_append, ih]
          simp
        · by_cases hc4 : c = '\r'
          · subst hc4
            rw [show pyEscapeChar q '\r' = ['\\', 'r'] from by
              simp [pyEscapeChar, Ne.symm hqr, Ne.symm hqbs]]
            rw [List.cons_append, List.cons_append, parsePyStr_esc_r _ _ hqbs, List.nil_append, ih]
            simp
          · by_cases hc5 : c = '\t'
            · subst hc5
              rw [show pyEscapeChar q '\t' = ['\\', 't'] from by
                simp [pyEscapeChar, Ne.symm hqt, Ne.symm hqbs]]
              rw [List.cons_append, List.cons_append, parsePyStr_esc_t _ _ hqbs, List.nil_append, ih]
              simp
            · by_cases hc6 : c.toNat < 32 ∨ c.toNat = 127
              · rw [show pyEscapeChar q c =
                    ['\\', 'x', hexDigitChar (c.toNat / 16), hexDigitChar (c.toNat % 16)] from by
                  simp only [pyEscapeChar, if_neg hc1, if_neg hc2, if_neg hc3,
                    if_neg hc4, if_neg hc5]
                  rw [if_pos (by simpa using hc6)]]
                have hd1 : hexDigitVal (hexDigitChar (c.toNat / 16)) = some (c.toNat / 16) :=
                  hexDigitVal_hexDigitChar _ (by omega)
                have hd2 : hexDigitVal (hexDigitChar (c.toNat % 16)) = some (c.toNat % 16) :=
                  hexDigitVal_hexDigitChar _ (by omega)
                rw [List.cons_append, List.cons_append, List.cons_append,
                  List.cons_append, parsePyStr_esc_hex _ _ hqbs hd1 hd2]
                rw [show 16 * (c.toNat / 16) + c.toNat % 16 = c.toNat from by omega,
                  Char.ofNat_toNat, List.nil_append, ih]
                simp
              · rw [show pyEscapeChar q c = [c] from by
                  simp only [pyEscapeChar, if_neg hc1, if_neg hc2, if_neg hc3,
                    if_neg hc4, if_neg hc5]
                  rw [if_neg (by simpa using hc6)]]
                rw [List.singleton_append,
                  parsePyStr_step_raw _ _ hc2 hc1 hc3 hc4, ih]
                simp

theorem asString_toList (s : String) : s.toList.asString = s := rfl

/-- `repr` of a string parses back to that string with any positive fuel. -/
theorem parsePy_reprStr (s : String) :
    ∀ (g : Nat) (d : List Char), 1 ≤ g →
      parsePy g (pyReprStr s.toList ++ d) = some (PyVal.vstr s, d) := by
  intro g d hg
  obtain ⟨g', rfl⟩ : ∃ g', g = g' + 1 := ⟨g - 1, by omega⟩
  simp only [pyReprStr]
  rcases pyQuote_cases s.toList with hq | hq <;> rw [hq]
  · rw [List.cons_append, parsePy]
    simp only [skipWs, show pyWs '\'' = false from rfl, Bool.false_eq_true, if_false,
      if_pos, List.append_eq]
    rw [List.append_assoc, List.singleton_append,
      parsePyStr_escaped '\'' (Or.inl rfl) s.toList [] d]
    simp only [Option.map_some', List.nil_append]
    rfl
  · rw [List.cons_append, parsePy]
    simp only [skipWs, show pyWs '"' = false from rfl, Bool.false_eq_true, if_false,
      if_true, List.append_eq]
    rw [List.append_assoc, List.singleton_append,
      parsePyStr_escaped '"' (Or.inr rfl) s.toList [] d]
    simp only [Option.map_some', List.nil_append]
    rfl

theorem parsePySeq_skip_space (g : Nat) (close : Char) (X : List Char) :
    parsePySeq (g + 1) close (' ' :: X) = parsePySeq (g + 1) close X := by
  rw [parsePySeq, parsePySeq, show skipWs (' ' :: X) = skipWs X from by simp [skipWs, pyWs]]

/-- A bracketed, comma-and-space separated sequence of renderings parses to
the corresponding values (generic in the rendering, used for both the raw
quoted cells of the import contract and the `repr`-escaped cells of the
export). -/
theorem parsePySeq_elements (close : Char)
    (hclose : pyWs close = false) (hcomma : close ≠ ',') :
    ∀ (items : List (List Char × PyVal)) (fuel : Nat) (rest : List Char),
      items.length + 1 ≤ fuel →
      (∀ p ∈ items, ∀ (g : Nat) (e : List Char), 1 ≤ g →
        parsePy g (p.1 ++ e) = some (p.2, e)) →
      (∀ p ∈ items, ∃ c t, p.1 = c :: t ∧ pyWs c = false ∧ c ≠ close) →
      parsePySeq fuel close (sepConcat [',', ' '] (items.map Prod.fst) ++ close :: rest) =
        some (items.map Prod.snd, rest) := by
  intro items
  induction items with
  | nil =>
    intro fuel rest hfuel _ _
    obtain ⟨f, rfl⟩ : ∃ f, fuel = f + 1 := ⟨fuel - 1, by omega⟩
    rw [parsePySeq]
    simp only [List.map_nil, sepConcat, List.nil_append]
    rw [skipWs_not close _ hclose]
    simp
  | cons p ps ih =>
    intro fuel rest hfuel hparse hhead
    obtain ⟨f, rfl⟩ : ∃ f, fuel = f + 1 := ⟨fuel - 1, by omega⟩
    obtain ⟨c, t, hp, hcws, hcclose⟩ := hhead p (List.mem_cons_self p ps)
    have hparse1 := hparse p (List.mem_cons_self p ps)
    cases ps with
    | nil =>
      simp only [List.map_cons, List.map_nil, sepConcat]
      rw [parsePySeq, hp, List.cons_append, skipWs_not c _ hcws]
      dsimp only
      rw [if_neg hcclose, ← List.cons_append, ← hp,
        hparse1 f (close :: rest) (by simp at hfuel; omega)]
      dsimp only
      rw [skipWs_not close _ hclose]
      simp
    | cons q ps' =>
      rw [show sepConcat [',', ' '] ((p :: q :: ps').map Prod.fst) =
          p.1 ++ ([',', ' '] ++ sepConcat [',', ' '] ((q :: ps').map Prod.fst)) from by
        simp [sepConcat]]
      rw [List.append_assoc, parsePySeq, hp, List.cons_append, skipWs_not c _ hcws]
      dsimp only
      rw [if_neg hcclose, ← List.cons_append, ← hp]
      rw [show ([',', ' '] ++ sepConcat [',', ' '] ((q :: ps').map Prod.fst)) ++ close :: rest =
          ',' :: ' ' :: (sepConcat [',', ' '] ((q :: ps').map Prod.fst) ++ close :: rest) from by
        simp]
      rw [hparse1 f _ (by simp at hfuel; omega)]
      dsimp only
      rw [skipWs_not ',' _ (by decide)]
      dsimp only
      rw [if_neg (Ne.symm hcomma), if_pos rfl]
      obtain ⟨g, rfl⟩ : ∃ g, f = g + 1 := ⟨f - 1, by simp at hfuel; omega⟩
      rw [parsePySeq_skip_space g close]
      rw [ih (g + 1) rest (by simp at hfuel ⊢; omega)
        (fun x hx => hparse x (List.mem_cons_of_mem p hx))
        (fun x hx => hhead x (List.mem_cons_of_mem p hx))]
      simp

theorem pyReprStr_length (s : List Char) : 2 ≤ (pyReprStr s).length := by
  simp only [pyReprStr, List.length_cons, List.length_append, List.length_singleton]
  omega

theorem sepConcat_repr_length (l : List String) :
    l.length ≤ (sepConcat [',', ' '] (l.map fun s => pyReprStr s.toList)).length := by
  induction l with
  | nil => simp [sepConcat]
  | cons a l' ih =>
    cases l' with
    | nil =>
      simp only [List.map_cons, List.map_nil, sepConcat, List.length_singleton]
      have := pyReprStr_length a.toList
      omega
    | cons b r =>
      rw [show sepConcat [',', ' '] ((a :: b :: r).map fun s => pyReprStr s.toList) =
          pyReprStr a.toList ++ [',', ' '] ++
            sepConcat [',', ' '] ((b :: r).map fun s => pyReprStr s.toList) from by
        simp [sepConcat]]
      simp only [List.length_append, List.length_cons]
      have h1 := pyReprStr_length a.toList
      simp only [List.length_cons] at ih
      omega

theorem pyReprStr_head (s : List Char) :
    ∃ c t, pyReprStr s = c :: t ∧ pyWs c = false ∧ c ≠ ']' := by
  rcases pyQuote_cases s with hq | hq <;>
    exact ⟨pyQuote s, _, rfl, by rw [hq]; decide, by rw [hq]; decide⟩

/-- `str` of a list of strings evaluates back, by `literal_eval`, to the list
of those strings. -/
theorem literal_eval_pyStrOfList (l : List String) :
    literal_eval (String.mk (pyStrOfList l)) = some (PyVal.vlist (l.map PyVal.vstr)) := by
  rw [literal_eval.eq_def]
  have htl : (String.mk (pyStrOfList l)).toList = pyStrOfList l := rfl
  rw [htl]
  rw [show pyStrOfList l =
      '[' :: (sepConcat [',', ' '] (l.map fun s => pyReprStr s.toList) ++ [']']) from rfl]
  rw [parsePy]
  rw [skipWs_not '[' _ (by decide)]
  dsimp only
  rw [if_neg (by decide), if_neg (by decide), if_pos rfl]
  have hitems :
      parsePySeq (('[' :: (sepConcat [',', ' ']
          (l.map fun s => pyReprStr s.toList) ++ [']'])).length) ']'
        (sepConcat [',', ' '] (l.map fun s => pyReprStr s.toList) ++ ']' :: []) =
      some (l.map PyVal.vstr, []) := by
    have h := parsePySeq_elements ']' (by decide) (by decide)
      (l.map fun s => (pyReprStr s.toList, PyVal.vstr s))
      (('[' :: (sepConcat [',', ' '] (l.map fun s => pyReprStr s.toList) ++ [']'])).length)
      []
      (by
        simp only [List.length_map, List.length_cons, List.length_append,
          List.length_singleton]
        have := sepConcat_repr_length l
        omega)
      (by
        intro p hp g e hg
        simp only [List.mem_map] at hp
        obtain ⟨s, -, rfl⟩ := hp
        exact parsePy_reprStr s g e hg)
      (by
        intro p hp
        simp only [List.mem_map] at hp
        obtain ⟨s, -, rfl⟩ := hp
        exact pyReprStr_head s.toList)
    simpa [List.map_map, Function.comp] using h
  rw [show (sepConcat [',', ' '] (l.map fun s => pyReprStr s.toList) ++ [']']) =
      (sepConcat [',', ' '] (l.map fun s => pyReprStr s.toList) ++ ']' :: []) from rfl]
  rw [hitems]
  simp [skipWs]

theorem asTextList_map_vstr : ∀ l : List String, asTextList (l.map PyVal.vstr) = some l := by
  intro l
  induction l with
  | nil => rfl
  | cons a l' ih => simp [asTextList, ih]

/-- A quoted string with no escapes and no quote/backslash/line-ending in the
body parses to that body. -/
theorem parsePy_rawQuoted (q : Char) (hq : q = '\'' ∨ q = '"') (s : List Char)
    (hs : ∀ c ∈ s, c ≠ q ∧ c ≠ '\\' ∧ c ≠ '\n' ∧ c ≠ '\r') :
    ∀ (g : Nat) (d : List Char), 1 ≤ g →
      parsePy g ((q :: (s ++ [q])) ++ d) = some (PyVal.vstr s.asString, d) := by
  intro g d hg
  obtain ⟨g', rfl⟩ : ∃ g', g = g' + 1 := ⟨g - 1, by omega⟩
  rcases hq with rfl | rfl
  · rw [List.cons_append, parsePy]
    simp only [skipWs, show pyWs '\'' = false from rfl, Bool.false_eq_true, if_false,
      if_pos, List.append_eq]
    rw [List.append_assoc, List.singleton_append, parsePyStr_raw '\'' s [] d hs]
    simp
  · rw [List.cons_append, parsePy]
    simp only [skipWs, show pyWs '"' = false from rfl, Bool.false_eq_true, if_false,
      if_true, List.append_eq]
    rw [List.append_assoc, List.singleton_append, parsePyStr_raw '"' s [] d hs]
    simp

theorem sepConcat_length_ge :
    ∀ xs : List (List Char), (∀ x ∈ xs, 2 ≤ x.length) →
      xs.length ≤ (sepConcat [',', ' '] xs).length := by
  intro xs
  induction xs with
  | nil => intro _; simp [sepConcat]
  | cons a l' ih =>
    intro h
    cases l' with
    | nil =>
      simp only [sepConcat, List.length_singleton]
      have := h a (List.mem_cons_self a [])
      omega
    | cons b r =>
      rw [show sepConcat [',', ' '] (a :: b :: r) =
          a ++ [',', ' '] ++ sepConcat [',', ' '] (b :: r) from by simp [sepConcat]]
      simp only [List.length_append, List.length_cons]
      have h1 := h a (List.mem_cons_self a (b :: r))
      have h2 := ih fun x hx => h x (List.mem_cons_of_mem a hx)
      simp only [List.length_cons] at h2
      omega

/-- The cell form named by the spec: a bracketed sequence whose elements are
text values quoted with single or double quotes. -/
def mkAutoresCell (l : List (Char × String)) : List Char :=
  '[' :: (sepConcat [',', ' '] (l.map fun p => p.1 :: (p.2.toList ++ [p.1])) ++ [']'])

/-- The authors-cell parser of the import path: `literal_eval` followed by
the `List[str]` validation. -/
def parseAutoresCell (cell : String) : Option (List String) :=
  (literal_eval cell).bind asTextSeq

theorem literal_eval_mkAutoresCell (l : List (Char × String))
    (hl : ∀ p ∈ l, (p.1 = '\'' ∨ p.1 = '"') ∧
      ∀ c ∈ p.2.toList, c ≠ p.1 ∧ c ≠ '\\' ∧ c ≠ '\n' ∧ c ≠ '\r') :
    literal_eval (String.mk (mkAutoresCell l)) =
      some (PyVal.vlist (l.map fun p => PyVal.vstr p.2)) := by
  rw [literal_eval.eq_def]
  have htl : (String.mk (mkAutoresCell l)).toList = mkAutoresCell l := rfl
  rw [htl]
  rw [show mkAutoresCell l =
      '[' :: (sepConcat [',', ' '] (l.map fun p => p.1 :: (p.2.toList ++ [p.1])) ++ [']'])
    from rfl]
  rw [parsePy]
  rw [skipWs_not '[' _ (by decide)]
  dsimp only
  rw [if_neg (by decide), if_neg (by decide), if_pos rfl]
  have hitems :
      parsePySeq (('[' :: (sepConcat [',', ' ']
          (l.map fun p => p.1 :: (p.2.toList ++ [p.1])) ++ [']'])).length) ']'
        (sepConcat [',', ' '] (l.map fun p => p.1 :: (p.2.toList ++ [p.1])) ++ ']' :: []) =
      some (l.map fun p => PyVal.vstr p.2, []) := by
    have h := parsePySeq_elements ']' (by decide) (by decide)
      (l.map fun p => (p.1 :: (p.2.toList ++ [p.1]), PyVal.vstr p.2))
      (('[' :: (sepConcat [',', ' ']
          (l.map fun p => p.1 :: (p.2.toList ++ [p.1])) ++ [']'])).length)
      []
      (by
        simp only [List.length_map, List.length_cons, List.length_append,
          List.length_singleton]
        have := sepConcat_length_ge (l.map fun p => p.1 :: (p.2.toList ++ [p.1]))
          (by
            intro x hx
            simp only [List.mem_map] at hx
            obtain ⟨p, -, rfl⟩ := hx
            simp only [List.length_cons, List.length_append, List.length_singleton]
            omega)
        simp only [List.length_map] at this
        omega)
      (by
        intro x hx g e hg
        simp only [List.mem_map] at hx
        obtain ⟨p, hp, rfl⟩ := hx
        obtain ⟨hq, hbody⟩ := hl p hp
        have := parsePy_rawQuoted p.1 hq p.2.toList hbody g e hg
        simpa [asString_toList] using this)
      (by
        intro x hx
        simp only [List.mem_map] at hx
        obtain ⟨p, hp, rfl⟩ := hx
        obtain ⟨hq, -⟩ := hl p hp
        exact ⟨p.1, _, rfl, by rcases hq with h | h <;> rw [h] <;> decide,
          by rcases hq with h | h <;> rw [h] <;> decide⟩)
    simpa [List.map_map, Function.comp] using h
  rw [show (sepConcat [',', ' '] (l.map fun p => p.1 :: (p.2.toList ++ [p.1])) ++ [']']) =
      (sepConcat [',', ' '] (l.map fun p => p.1 :: (p.2.toList ++ [p.1])) ++ ']' :: [])
    from rfl]
  rw [hitems]
  simp [skipWs]

/-- Claim C6: the authors-cell parser accepts a bracketed sequence of text
values quoted with either single or double quotes (in particular `[]` gives
the empty sequence), and the import only ever constructs a record when the
cell's literal denotes a sequence of text values — any cell evaluating to
anything else (a number, a mapping, a sequence with non-text elements) fails
the row.  (The `List[str]` validation itself is modelled from the spec, as
the Pydantic library is outside src/.) -/
theorem c6_autores_cell_contract :
    (∀ l : List (Char × String),
      (∀ p ∈ l, (p.1 = '\'' ∨ p.1 = '"') ∧
        ∀ c ∈ p.2.toList, c ≠ p.1 ∧ c ≠ '\\' ∧ c ≠ '\n' ∧ c ≠ '\r') →
      parseAutoresCell (String.mk (mkAutoresCell l)) = some (l.map Prod.snd)) ∧
    parseAutoresCell "[]" = some [] ∧
    (∀ (f row : List String) (c : CreateObra),
      parseRowFields f row = .ok c →
      ∃ cell v, rowLookup f row "autores" = some (some cell) ∧
        literal_eval cell = some v ∧ asTextSeq v = some c.autores) := by
  refine ⟨?_, rfl, ?_⟩
  · intro l hl
    rw [parseAutoresCell, literal_eval_mkAutoresCell l hl]
    simp only [Option.bind_some, asTextSeq]
    rw [show (l.map fun p => PyVal.vstr p.2) = (l.map Prod.snd).map PyVal.vstr from by
      simp [List.map_map, Function.comp]]
    exact asTextList_map_vstr (l.map Prod.snd)
  · intro f row c h
    rw [parseRowFields.eq_def] at h
    cases h1 : rowLookup f row "titulo" with
    | none => rw [h1] at h; cases h
    | some t? =>
      rw [h1] at h
      dsimp only at h
      cases h2 : rowLookup f row "editora" with
      | none => rw [h2] at h; cases h
      | some e? =>
        rw [h2] at h
        dsimp only at h
        cases h3 : rowLookup f row "foto" with
        | none => rw [h3] at h; cases h
        | some p? =>
          rw [h3] at h
          dsimp only at h
          cases h4 : rowLookup f row "autores" with
          | none => rw [h4] at h; cases h
          | some a? =>
            rw [h4] at h
            dsimp only at h
            cases a? with
            | none => cases h
            | some cell =>
              dsimp only at h
              cases h5 : literal_eval cell with
              | none => rw [h5] at h; cases h
              | some v =>
                rw [h5] at h
                dsimp only at h
                refine ⟨cell, v, rfl, h5, ?_⟩
                cases t? with
                | none =>
                  exfalso
                  cases hseq : asTextSeq v <;> rw [hseq] at h <;> cases h
                | some t =>
                  cases e? with
                  | none =>
                    exfalso
                    cases hseq : asTextSeq v <;> rw [hseq] at h <;> cases h
                  | some e =>
                    cases p? with
                    | none =>
                      exfalso
                      cases hseq : asTextSeq v <;> rw [hseq] at h <;> cases h
                    | some p =>
                      cases hseq : asTextSeq v with
                      | none => rw [hseq] at h; cases h
                      | some autores =>
                        rw [hseq] at h
                        dsimp only at h
                        obtain rfl := Except.ok.injEq .. ▸ h
                        rfl

/-- Witness for C6: a concrete mixed-quote cell, the empty cell, and a
concrete successful row. -/
theorem c6_autores_cell_contract_witness :
    parseAutoresCell (String.mk (mkAutoresCell [('\'', "Ana"), ('"', "Bruno")])) =
      some ["Ana", "Bruno"] ∧
    parseAutoresCell "[]" = some [] ∧
    ∃ cell v,
      rowLookup ["titulo", "editora", "foto", "autores"] ["A", "E", "u", "['X']"]
        "autores" = some (some cell) ∧
      literal_eval cell = some v ∧
      asTextSeq v = some (CreateObra.mk "A" "E" "u" ["X"]).autores :=
  ⟨c6_autores_cell_contract.1 [('\'', "Ana"), ('"', "Bruno")] (by decide),
   c6_autores_cell_contract.2.1,
   c6_autores_cell_contract.2.2 ["titulo", "editora", "foto", "autores"]
     ["A", "E", "u", "['X']"] (CreateObra.mk "A" "E" "u" ["X"]) rfl⟩

theorem parseUnquoted_append :
    ∀ (s acc d : List Char), (∀ c ∈ s, isCsvSpecial c = false) →
      parseUnquoted acc (s ++ d) = parseUnquoted (acc ++ s) d := by
  intro s
  induction s with
  | nil => intro acc d _; simp
  | cons c s' ih =>
    intro acc d h
    have hc := h c (List.mem_cons_self c s')
    simp only [isCsvSpecial, Bool.or_eq_false_iff, decide_eq_false_iff_not] at hc
    obtain ⟨⟨⟨hc1, hc2⟩, hc3⟩, hc4⟩ := hc
    rw [List.cons_append]
    rw [show parseUnquoted acc (c :: (s' ++ d)) = parseUnquoted (acc ++ [c]) (s' ++ d) from by
      simp only [parseUnquoted, if_neg hc1, if_neg hc3, if_neg hc4]]
    rw [ih (acc ++ [c]) d fun x hx => h x (List.mem_cons_of_mem c hx)]
    simp

theorem parseQuoted_step_dq (acc t : List Char) :
    parseQuoted acc ('"' :: '"' :: t) = parseQuoted (acc ++ ['"']) t := by
  rw [parseQuoted.eq_def]
  simp

theorem parseQuoted_step_raw {c : Char} (acc t : List Char) (h : c ≠ '"') :
    parseQuoted acc (c :: t) = parseQuoted (acc ++ [c]) t := by
  rw [parseQuoted.eq_def]
  simp [h]

theorem parseQuoted_close_comma (acc t : List Char) :
    parseQuoted acc ('"' :: ',' :: t) = (acc, .comma, t) := by
  rw [parseQuoted.eq_def]
  simp

theorem parseQuoted_close_crlf (acc t : List Char) :
    parseQuoted acc ('"' :: '\r' :: '\n' :: t) = (acc, .eol, t) := by
  rw [parseQuoted.eq_def]
  simp [dropLf]

theorem parseQuoted_escape :
    ∀ (s acc d : List Char),
      parseQuoted acc (escapeQuotes s ++ '"' :: d) = parseQuoted (acc ++ s) ('"' :: d) := by
  intro s
  induction s with
  | nil => intro acc d; simp [escapeQuotes]
  | cons c s' ih =>
    intro acc d
    by_cases hc : c = '"'
    · subst hc
      rw [show escapeQuotes ('"' :: s') = '"' :: '"' :: escapeQuotes s' from by
        simp [escapeQuotes]]
      rw [List.cons_append, List.cons_append, parseQuoted_step_dq, ih]
      simp
    · rw [show escapeQuotes (c :: s') = c :: escapeQuotes s' from by
        simp [escapeQuotes, hc]]
      rw [List.cons_append, parseQuoted_step_raw _ _ hc, ih]
      simp

/-- A field is recovered verbatim by the reader when it is either quoted or
does not begin with a space (`skipinitialspace` strips leading spaces of
unquoted fields). -/
def fieldOK (f : List Char) : Bool := needsQuote f || !(f.head? == some ' ')

theorem needsQuote_false_mem {f : List Char} (h : needsQuote f = false) :
    ∀ c ∈ f, isCsvSpecial c = false := by
  intro c hc
  have h2 := List.any_eq_false.mp h c hc
  simpa using h2

theorem parseField_render_comma (f : List Char) (hok : fieldOK f = true) (r : List Char) :
    parseField (csvQuoteField f ++ ',' :: r) = (f, .comma, r) := by
  by_cases hq : needsQuote f = true
  · rw [show csvQuoteField f = '"' :: (escapeQuotes f ++ ['"']) from by
      simp [csvQuoteField, hq]]
    rw [List.cons_append]
    rw [show parseField ('"' :: ((escapeQuotes f ++ ['"']) ++ ',' :: r)) =
        parseQuoted [] ((escapeQuotes f ++ ['"']) ++ ',' :: r) from by
      simp [parseField]]
    rw [List.append_assoc, List.singleton_append, parseQuoted_escape f [] (',' :: r),
      parseQuoted_close_comma]
    simp
  · have hq' : needsQuote f = false := by simpa using hq
    have hchars := needsQuote_false_mem hq'
    rw [show csvQuoteField f = f from by simp [csvQuoteField, hq']]
    cases f with
    | nil =>
      simp only [List.nil_append]
      rw [show parseField (',' :: r) = ([], .comma, r) from by simp [parseField]]
    | cons c f' =>
      have hcs := hchars c (List.mem_cons_self c f')
      simp only [isCsvSpecial, Bool.or_eq_false_iff, decide_eq_false_iff_not] at hcs
      obtain ⟨⟨⟨hc1, hc2⟩, hc3⟩, hc4⟩ := hcs
      have hsp : c ≠ ' ' := by
        simp only [fieldOK, hq', Bool.false_or, List.head?_cons,
          Bool.not_eq_true'] at hok
        simpa using hok
      rw [List.cons_append]
      rw [show parseField (c :: (f' ++ ',' :: r)) = parseUnquoted [c] (f' ++ ',' :: r) from by
        simp [parseField, hsp, hc2, hc1, hc3, hc4]]
      rw [parseUnquoted_append f' [c] (',' :: r)
        (fun x hx => hchars x (List.mem_cons_of_mem c hx))]
      rw [show parseUnquoted ([c] ++ f') (',' :: r) = ([c] ++ f', .comma, r) from by
        simp [parseUnquoted]]
      simp

theorem parseField_render_eol (f : List Char) (hok : fieldOK f = true) (r : List Char) :
    parseField (csvQuoteField f ++ '\r' :: '\n' :: r) = (f, .eol, r) := by
  by_cases hq : needsQuote f = true
  · rw [show csvQuoteField f = '"' :: (escapeQuotes f ++ ['"']) from by
      simp [csvQuoteField, hq]]
    rw [List.cons_append]
    rw [show parseField ('"' :: ((escapeQuotes f ++ ['"']) ++ '\r' :: '\n' :: r)) =
        parseQuoted [] ((escapeQuotes f ++ ['"']) ++ '\r' :: '\n' :: r) from by
      simp [parseField]]
    rw [List.append_assoc, List.singleton_append,
      parseQuoted_escape f [] ('\r' :: '\n' :: r), parseQuoted_close_crlf]
    simp
  · have hq' : needsQuote f = false := by simpa using hq
    have hchars := needsQuote_false_mem hq'
    rw [show csvQuoteField f = f from by simp [csvQuoteField, hq']]
    cases f with
    | nil =>
      simp only [List.nil_append]
      rw [show parseField ('\r' :: '\n' :: r) = ([], .eol, r) from by
        simp [parseField, dropLf]]
    | cons c f' =>
      have hcs := hchars c (List.mem_cons_self c f')
      simp only [isCsvSpecial, Bool.or_eq_false_iff, decide_eq_false_iff_not] at hcs
      obtain ⟨⟨⟨hc1, hc2⟩, hc3⟩, hc4⟩ := hcs
      have hsp : c ≠ ' ' := by
        simp only [fieldOK, hq', Bool.false_or, List.head?_cons,
          Bool.not_eq_true'] at hok
        simpa using hok
      rw [List.cons_append]
      rw [show parseField (c :: (f' ++ '\r' :: '\n' :: r)) =
          parseUnquoted [c] (f' ++ '\r' :: '\n' :: r) from by
        simp [parseField, hsp, hc2, hc1, hc3, hc4]]
      rw [parseUnquoted_append f' [c] ('\r' :: '\n' :: r)
        (fun x hx => hchars x (List.mem_cons_of_mem c hx))]
      rw [show parseUnquoted ([c] ++ f') ('\r' :: '\n' :: r) = ([c] ++ f', .eol, r) from by
        simp [parseUnquoted, dropLf]]
      simp

theorem parseFieldsF_render :
    ∀ (fs : List (List Char)) (fuel : Nat) (r : List Char),
      fs ≠ [] → fs.length ≤ fuel → (∀ f ∈ fs, fieldOK f = true) →
      parseFieldsF fuel (sepConcat [','] (fs.map csvQuoteField) ++ '\r' :: '\n' :: r) =
        (fs.map List.asString, true, r) := by
  intro fs
  induction fs with
  | nil => intro fuel r hne _ _; exact absurd rfl hne
  | cons f fs' ih =>
    intro fuel r _ hfuel hok
    obtain ⟨g, rfl⟩ : ∃ g, fuel = g + 1 := ⟨fuel - 1, by simp at hfuel; omega⟩
    have hokf := hok f (List.mem_cons_self f fs')
    cases fs' with
    | nil =>
      simp only [List.map_cons, List.map_nil, sepConcat]
      rw [parseFieldsF.eq_def]
      dsimp only
      rw [parseField_render_eol f hokf r]
    | cons f2 fs'' =>
      rw [show sepConcat [','] ((f :: f2 :: fs'').map csvQuoteField) =
          csvQuoteField f ++ ([','] ++ sepConcat [','] ((f2 :: fs'').map csvQuoteField))
        from by simp [sepConcat]]
      rw [List.append_assoc]
      rw [show ([','] ++ sepConcat [','] ((f2 :: fs'').map csvQuoteField)) ++
          '\r' :: '\n' :: r =
          ',' :: (sepConcat [','] ((f2 :: fs'').map csvQuoteField) ++ '\r' :: '\n' :: r)
        from by simp]
      rw [parseFieldsF.eq_def]
      dsimp only
      rw [parseField_render_comma f hokf _]
      dsimp only
      rw [ih g r (by simp) (by simp at hfuel ⊢; omega)
        (fun x hx => hok x (List.mem_cons_of_mem f hx))]
      simp

theorem csvRenderRow_head (row : List (List Char)) (h2 : 2 ≤ row.length) :
    ∃ c t, csvRenderRow row = c :: t ∧ c ≠ '\r' ∧ c ≠ '\n' := by
  cases row with
  | nil => simp at h2
  | cons f1 rest =>
    cases rest with
    | nil => simp at h2
    | cons f2 rest' =>
      rw [show csvRenderRow (f1 :: f2 :: rest') =
          (csvQuoteField f1 ++ ([','] ++ sepConcat [','] ((f2 :: rest').map csvQuoteField)))
            ++ ['\r', '\n'] from by simp [csvRenderRow, sepConcat]]
      by_cases hq : needsQuote f1 = true
      · rw [show csvQuoteField f1 = '"' :: (escapeQuotes f1 ++ ['"']) from by
          simp [csvQuoteField, hq]]
        exact ⟨_, _, rfl, by decide, by decide⟩
      · have hq' : needsQuote f1 = false := by simpa using hq
        rw [show csvQuoteField f1 = f1 from by simp [csvQuoteField, hq']]
        cases f1 with
        | nil => exact ⟨_, _, rfl, by decide, by decide⟩
        | cons c t =>
          have hcs := needsQuote_false_mem hq' c (List.mem_cons_self c t)
          simp only [isCsvSpecial, Bool.or_eq_false_iff, decide_eq_false_iff_not] at hcs
          exact ⟨_, _, rfl, hcs.1.2, hcs.2⟩

theorem parseRowsF_render :
    ∀ (rows : List (List (List Char))) (fuel M : Nat),
      (∀ row ∈ rows, 2 ≤ row.length ∧ row.length ≤ M ∧ ∀ f ∈ row, fieldOK f = true) →
      rows.length + M ≤ fuel →
      parseRowsF fuel ((rows.map csvRenderRow).flatten) =
        rows.map fun row => row.map List.asString := by
  intro rows
  induction rows with
  | nil =>
    intro fuel M _ _
    cases fuel <;> simp [parseRowsF]
  | cons row rows' ih =>
    intro fuel M hrows hfuel
    obtain ⟨hr2, hrM, hrok⟩ := hrows row (List.mem_cons_self row rows')
    obtain ⟨g, rfl⟩ : ∃ g, fuel = g + 1 := ⟨fuel - 1, by simp at hfuel; omega⟩
    obtain ⟨c, t, hct, hcr, hcn⟩ := csvRenderRow_head row hr2
    rw [show ((row :: rows').map csvRenderRow).flatten =
        csvRenderRow row ++ ((rows'.map csvRenderRow)).flatten from by simp]
    rw [hct, List.cons_append, parseRowsF.eq_def]
    dsimp only
    rw [if_neg hcr, if_neg hcn, ← List.cons_append, ← hct]
    rw [show csvRenderRow row ++ (rows'.map csvRenderRow).flatten =
        sepConcat [','] (row.map csvQuoteField) ++
          '\r' :: '\n' :: (rows'.map csvRenderRow).flatten from by
      simp [csvRenderRow]]
    rw [parseFieldsF_render row (g + 1) _ (by
        intro hrow
        rw [hrow] at hr2
        simp at hr2)
      (by simp at hfuel; omega) hrok]
    dsimp only
    rw [ih g M (fun x hx => hrows x (List.mem_cons_of_mem row hx))
      (by simp at hfuel ⊢; omega)]
    simp

theorem sepConcat_comma_length :
    ∀ xs : List (List Char), xs.length ≤ (sepConcat [','] xs).length + 1 := by
  intro xs
  induction xs with
  | nil => simp [sepConcat]
  | cons a l' ih =>
    cases l' with
    | nil => simp [sepConcat]
    | cons b r =>
      rw [show sepConcat [','] (a :: b :: r) = a ++ [','] ++ sepConcat [','] (b :: r) from by
        simp [sepConcat]]
      simp only [List.length_append, List.length_cons, List.length_singleton] at *
      omega

theorem csvRenderRow_length (row : List (List Char)) :
    row.length + 1 ≤ (csvRenderRow row).length := by
  have h := sepConcat_comma_length (row.map csvQuoteField)
  simp only [csvRenderRow, List.length_append, List.length_map] at *
  simp only [List.length_cons, List.length_singleton]
  omega

theorem csvRenderDoc_length (rows : List (List (List Char)))
    (h : ∀ row ∈ rows, 7 ≤ row.length) :
    8 * rows.length ≤ (csvRenderDoc rows).length := by
  induction rows with
  | nil => simp [csvRenderDoc]
  | cons row rows' ih =>
    rw [show csvRenderDoc (row :: rows') = csvRenderRow row ++ csvRenderDoc rows' from by
      simp [csvRenderDoc]]
    have h1 := csvRenderRow_length row
    have h2 := h row (List.mem_cons_self row rows')
    have h3 := ih fun x hx => h x (List.mem_cons_of_mem row hx)
    simp only [List.length_append, List.length_cons]
    omega

theorem fieldOK_head {f : List Char} {c : Char} (hc : f.head? = some c) (h : c ≠ ' ') :
    fieldOK f = true := by
  simp only [fieldOK, hc, Bool.or_eq_true]
  exact Or.inr (by simpa using h)

theorem fieldOK_pyStrOfList (l : List String) : fieldOK (pyStrOfList l) = true :=
  fieldOK_head (by rw [show pyStrOfList l =
    '[' :: (sepConcat [',', ' '] (l.map fun s => pyReprStr s.toList) ++ [']']) from rfl]; rfl)
    (by decide)

theorem natDigitsF_digits :
    ∀ (fuel n : Nat), ∀ c ∈ natDigitsF fuel n, 48 ≤ c.toNat ∧ c.toNat ≤ 57 := by
  intro fuel
  induction fuel with
  | zero => intro n c hc; cases hc
  | succ g ih =>
    intro n c hc
    simp only [natDigitsF] at hc
    split at hc
    · next h =>
      simp only [List.mem_singleton] at hc
      subst hc
      have : ∀ m : Nat, m < 10 → 48 ≤ (digitChar m).toNat ∧ (digitChar m).toNat ≤ 57 := by
        decide
      exact this n h
    · rcases List.mem_append.mp hc with hc | hc
      · exact ih (n / 10) c hc
      · simp only [List.mem_singleton] at hc
        subst hc
        have : ∀ m : Nat, m < 10 → 48 ≤ (digitChar m).toNat ∧ (digitChar m).toNat ≤ 57 := by
          decide
        exact this (n % 10) (Nat.mod_lt n (by omega))

theorem natDigitsF_ne_nil (fuel n : Nat) (h : 1 ≤ fuel) : natDigitsF fuel n ≠ [] := by
  obtain ⟨g, rfl⟩ : ∃ g, fuel = g + 1 := ⟨fuel - 1, by omega⟩
  simp only [natDigitsF]
  split
  · simp
  · simp

theorem fieldOK_natDigits (n : Nat) : fieldOK (natDigits n) = true := by
  cases hd : (natDigits n).head? with
  | none =>
    exfalso
    exact natDigitsF_ne_nil (n + 1) n (by omega) (List.head?_eq_none_iff.mp hd)
  | some c =>
    refine fieldOK_head hd ?_
    have hmem : c ∈ natDigits n := List.mem_of_mem_head? hd
    have := natDigitsF_digits (n + 1) n c hmem
    intro h
    rw [h] at this
    simp at this

/-- The row written for a record has its four mutable cells recoverable: the
lookups hit the right columns and the autores cell evaluates back. -/
theorem parseRowFields_export_row (o : Obra) :
    parseRowFields ["titulo", "editora", "foto", "autores", "id", "created_at", "updated_at"]
      ((obraCsvRow o).map List.asString) =
      .ok ⟨o.titulo, o.editora, o.foto, o.autores⟩ := by
  have hrow : (obraCsvRow o).map List.asString =
      [o.titulo, o.editora, o.foto, (pyStrOfList o.autores).asString,
       (natDigits o.id).asString, (natDigits o.created_at).asString,
       (natDigits o.updated_at).asString] := by
    simp only [obraCsvRow, List.map_cons, List.map_nil]
    exact rfl
  rw [hrow, parseRowFields.eq_def]
  rw [show rowLookup ["titulo", "editora", "foto", "autores", "id", "created_at", "updated_at"]
      [o.titulo, o.editora, o.foto, (pyStrOfList o.autores).asString,
       (natDigits o.id).asString, (natDigits o.created_at).asString,
       (natDigits o.updated_at).asString] "titulo" = some (some o.titulo) from rfl]
  dsimp only
  rw [show rowLookup ["titulo", "editora", "foto", "autores", "id", "created_at", "updated_at"]
      [o.titulo, o.editora, o.foto, (pyStrOfList o.autores).asString,
       (natDigits o.id).asString, (natDigits o.created_at).asString,
       (natDigits o.updated_at).asString] "editora" = some (some o.editora) from rfl]
  dsimp only
  rw [show rowLookup ["titulo", "editora", "foto", "autores", "id", "created_at", "updated_at"]
      [o.titulo, o.editora, o.foto, (pyStrOfList o.autores).asString,
       (natDigits o.id).asString, (natDigits o.created_at).asString,
       (natDigits o.updated_at).asString] "foto" = some (some o.foto) from rfl]
  dsimp only
  rw [show rowLookup ["titulo", "editora", "foto", "autores", "id", "created_at", "updated_at"]
      [o.titulo, o.editora, o.foto, (pyStrOfList o.autores).asString,
       (natDigits o.id).asString, (natDigits o.created_at).asString,
       (natDigits o.updated_at).asString] "autores"
      = some (some ((pyStrOfList o.autores).asString)) from rfl]
  dsimp only
  rw [show (pyStrOfList o.autores).asString = String.mk (pyStrOfList o.autores) from rfl,
    literal_eval_pyStrOfList o.autores]
  dsimp only
  rw [show asTextSeq (PyVal.vlist (o.autores.map PyVal.vstr)) =
      asTextList (o.autores.map PyVal.vstr) from rfl,
    asTextList_map_vstr o.autores]

/-- Components of a record a client can see and re-create: the four mutable
fields (ids and timestamps are server-assigned and expected to differ across
the round trip). -/
def obraQuad (o : Obra) : String × String × String × List String :=
  (o.titulo, o.editora, o.foto, o.autores)

theorem appendMany_map_obraQuad (now : Nat) :
    ∀ (cs : List CreateObra) (s : Obras),
      (appendMany s now cs).1.map obraQuad =
        cs.map fun c => (c.titulo, c.editora, c.foto, c.autores) := by
  intro cs
  induction cs with
  | nil => intro s; rfl
  | cons c rest ih =>
    intro s
    simp only [appendMany, List.map_cons, ih]
    rfl

theorem processRows_export (now : Nat) :
    ∀ (os : List Obra) (s : Obras),
      processRows s now
          ["titulo", "editora", "foto", "autores", "id", "created_at", "updated_at"]
          (os.map fun o => (obraCsvRow o).map List.asString) =
        (UploadOutcome.ok
          (appendMany s now (os.map fun o => ⟨o.titulo, o.editora, o.foto, o.autores⟩)).1,
         (appendMany s now (os.map fun o => ⟨o.titulo, o.editora, o.foto, o.autores⟩)).2) := by
  intro os
  induction os with
  | nil => intro s; rfl
  | cons o os' ih =>
    intro s
    simp only [List.map_cons, processRows, parseRowFields_export_row o]
    rw [ih (s.append now ⟨o.titulo, o.editora, o.foto, o.autores⟩).2]
    simp [appendMany]

/-- The per-record condition under which the export/import round trip is
exact: each client-text field is either CSV-quoted on export (contains a
comma, quote, CR or LF) or does not begin with a space — otherwise
`skipinitialspace=True` strips the leading spaces on re-import. -/
def exportFieldOK (o : Obra) : Bool :=
  fieldOK o.titulo.toList && fieldOK o.editora.toList && fieldOK o.foto.toList

/-- Claim C7 (amended): exporting a non-empty Store with `get_file_obras` and
importing the document into a fresh empty Store yields the same number of
records, in the same order, with equal titulo/editora/foto/autores fields —
provided no titulo/editora/foto value starts with a space while being
unquoted in the CSV (ids and timestamps are reassigned, as the claim
allows). -/
theorem c7_round_trip (s : Obras) (now : Nat)
    (hne : s.obras ≠ [])
    (hok : ∀ o ∈ s.obras, exportFieldOK o = true) :
    ∃ text recs s',
      get_file_obras s none = Except.ok text ∧
      post_upload_obras Obras.empty now text = (UploadOutcome.ok recs, s') ∧
      recs.map obraQuad = s.obras.map obraQuad ∧
      s'.obras = recs := by
  have hfilter : s.get_all_as_dict_filtered none = s.obras := by
    simp [Obras.get_all_as_dict_filtered]
  have hie : s.obras.isEmpty = false := by
    cases hS : s.obras with
    | nil => exact absurd hS hne
    | cons a l => rfl
  have hexp : get_file_obras s none =
      Except.ok (String.mk (csvRenderDoc (obraFieldnames :: s.obras.map obraCsvRow))) := by
    simp only [get_file_obras, hfilter, hie, Bool.false_eq_true, if_false]
  have hrows7 : ∀ row ∈ obraFieldnames :: s.obras.map obraCsvRow,
      row.length = 7 ∧ ∀ f ∈ row, fieldOK f = true := by
    intro row hr
    rcases List.mem_cons.mp hr with rfl | hr
    · exact ⟨by decide, by decide⟩
    · simp only [List.mem_map] at hr
      obtain ⟨o, ho, rfl⟩ := hr
      have hqok := hok o ho
      simp only [exportFieldOK, Bool.and_eq_true] at hqok
      obtain ⟨⟨h1, h2⟩, h3⟩ := hqok
      refine ⟨by simp [obraCsvRow], ?_⟩
      intro f hf
      simp only [obraCsvRow, List.mem_cons, List.mem_singleton] at hf
      rcases hf with rfl | rfl | rfl | rfl | rfl | rfl | rfl | hfin
      · exact h1
      · exact h2
      · exact h3
      · exact fieldOK_pyStrOfList o.autores
      · exact fieldOK_natDigits o.id
      · exact fieldOK_natDigits o.created_at
      · exact fieldOK_natDigits o.updated_at
      · cases hfin
  have h8 := csvRenderDoc_length (obraFieldnames :: s.obras.map obraCsvRow)
    (fun row hr => by rw [(hrows7 row hr).1])
  have hparsed :
      parseRows (csvRenderDoc (obraFieldnames :: s.obras.map obraCsvRow)) =
        (obraFieldnames :: s.obras.map obraCsvRow).map fun row => row.map List.asString := by
    rw [parseRows]
    refine parseRowsF_render (obraFieldnames :: s.obras.map obraCsvRow) _ 7 ?_ ?_
    · intro row hr
      obtain ⟨hl, hfok⟩ := hrows7 row hr
      exact ⟨by omega, by omega, hfok⟩
    · simp only [List.length_cons] at h8 ⊢
      omega
  refine ⟨String.mk (csvRenderDoc (obraFieldnames :: s.obras.map obraCsvRow)),
    (appendMany Obras.empty now
      (s.obras.map fun o => ⟨o.titulo, o.editora, o.foto, o.autores⟩)).1,
    (appendMany Obras.empty now
      (s.obras.map fun o => ⟨o.titulo, o.editora, o.foto, o.autores⟩)).2,
    hexp, ?_, ?_, ?_⟩
  · rw [post_upload_obras]
    rw [show (String.mk (csvRenderDoc (obraFieldnames :: s.obras.map obraCsvRow))).toList =
        csvRenderDoc (obraFieldnames :: s.obras.map obraCsvRow) from rfl]
    rw [hparsed]
    rw [show (obraFieldnames :: s.obras.map obraCsvRow).map
          (fun row => row.map List.asString) =
        ["titulo", "editora", "foto", "autores", "id", "created_at", "updated_at"] ::
          (s.obras.map fun o => (obraCsvRow o).map List.asString) from by
      simp only [List.map_cons, List.map_map]
      exact rfl]
    dsimp only
    rw [show List.filter (fun r => !r.isEmpty)
          (s.obras.map fun o => (obraCsvRow o).map List.asString) =
        s.obras.map fun o => (obraCsvRow o).map List.asString from
      List.filter_eq_self.mpr (by
        intro r hr
        simp only [List.mem_map] at hr
        obtain ⟨o, -, rfl⟩ := hr
        rfl)]
    rw [processRows_export now s.obras Obras.empty]
  · rw [appendMany_map_obraQuad]
    simp only [List.map_map]
    exact rfl
  · rw [appendMany_obras]
    rfl

/-- A store whose single record's titulo begins with a space; its export is
unquoted, so the importer strips the space. -/
def c7cexStore : Obras := ⟨[⟨" A", "E", "u", ["X"], 1, 0, 0⟩], 1⟩

/-- The round trip observed through the two handlers: export, then import
into a fresh store, keeping only the four mutable fields. -/
def roundTripQuads (s : Obras) (now : Nat) :
    Option (List (String × String × String × List String)) :=
  match get_file_obras s none with
  | .ok t =>
    match post_upload_obras Obras.empty now t with
    | (.ok recs, _) => some (recs.map obraQuad)
    | _ => none
  | _ => none

/-- Counterexample to C7 as stated: the record titled " A" comes back titled
"A" — `skipinitialspace=True` strips the leading space of the unquoted
cell — so the re-imported fields differ from the originals. -/
theorem c7_round_trip_counterexample :
    roundTripQuads c7cexStore 9 = some [("A", "E", "u", ["X"])] ∧
    c7cexStore.obras.map obraQuad = [(" A", "E", "u", ["X"])] := by
  constructor
  · decide
  · decide

/-- Witness for C7 (amended) on a store exercising quoting: a comma in a
titulo, a double quote in an editora, and quotes inside author names. -/
def c7okStore : Obras :=
  ⟨[⟨"A", "E", "u", ["X"], 1, 3, 3⟩,
    ⟨"B,x", "F\"g", "v", ["Y", "Z's"], 2, 4, 5⟩], 2⟩

set_option maxRecDepth 16000 in
theorem c7_round_trip_witness :
    c7okStore.obras ≠ [] ∧
    (∀ o ∈ c7okStore.obras, exportFieldOK o = true) ∧
    ∃ text recs s',
      get_file_obras c7okStore none = Except.ok text ∧
      post_upload_obras Obras.empty 9 text = (UploadOutcome.ok recs, s') ∧
      recs.map obraQuad = c7okStore.obras.map obraQuad ∧
      s'.obras = recs :=
  ⟨by decide, by decide, c7_round_trip c7okStore 9 (by decide) (by decide)⟩
